import Mathlib

/-!
Verification development for the htmlplus (`htmp.js`) reactive template
framework.  The definitions below are a shallow embedding of the source:
JavaScript objects are identified by natural-number ids, property keys by a
small `Key` type, the module-level mutable state (`targetMap`, `updateQueue`,
`isFlushPending`, `currentEffect`, `reactiveMap`, `parentMap`) becomes an
explicit record threaded through every operation, and effect bodies are a
small instruction language of tracked reads and proxied writes.
-/

namespace Htmp

/-- Property keys.  `named n` models an ordinary string key; `length` and
`arrayMagic` model the distinguished `'length'` and `'__array__'` keys used
by the array handling in `htmp.js`. -/
inductive Key where
  | named (n : Nat)
  | length
  | arrayMagic
deriving DecidableEq, Repr

/-- Runtime values as seen by the reactive layer.  `obj id` is a reference to
a JS object (identity = id), so Lean equality on `Val` coincides with the
source's `===` (strict equality: structural on primitives, reference
identity on objects). -/
inductive Val where
  | undef
  | vnull
  | prim (n : Int)
  | str (s : String)
  | boolv (b : Bool)
  | obj (id : Nat)
deriving DecidableEq, Repr

/-- `typeof value === 'object' && value !== null` from the set trap.
`null` has typeof `'object'` in JS but is excluded by the `!== null` test,
so only object references qualify. -/
def Val.isObjRef : Val → Bool
  | .obj _ => true
  | _ => false

/-- JS truthiness, used by conditional effect bodies. -/
def Val.truthy : Val → Bool
  | .undef => false
  | .vnull => false
  | .prim n => n ≠ 0
  | .str s => s ≠ ""
  | .boolv b => b
  | .obj _ => true

/-- Association-list lookup (models `Map.get` / `WeakMap.get`). -/
def alookup {α β : Type} [DecidableEq α] : List (α × β) → α → Option β
  | [], _ => none
  | (a, b) :: rest, x => if a = x then some b else alookup rest x

/-- Association-list update (models `Map.set` / `WeakMap.set`). -/
def aupdate {α β : Type} [DecidableEq α] : List (α × β) → α → β → List (α × β)
  | [], x, v => [(x, v)]
  | (a, b) :: rest, x, v =>
      if a = x then (x, v) :: rest else (a, b) :: aupdate rest x v

/-- Effect bodies: a tracked computation is modelled as a straight-line
program of proxied reads and writes.  `readIf ft fk t k` reads the flag
property `(ft, fk)` and, only when its value is truthy, also reads `(t, k)`
— the conditional/branchy shape the dependency-pruning claim is about. -/
inductive Instr where
  | read (t : Nat) (k : Key)
  | readIf (ft : Nat) (fk : Key) (t : Nat) (k : Key)
  | write (t : Nat) (k : Key) (v : Val)
deriving DecidableEq, Repr

/-- The module-level mutable state of the reactive system in `htmp.js`. -/
structure RSys where
  /-- property store: raw object id × key → value (missing = `undefined`). -/
  heap : List ((Nat × Key) × Val)
  /-- `targetMap`: (target, key) → set of dependent effects, kept as an
  insertion-ordered duplicate-free list (JS `Set` iterates insertion order). -/
  targetMap : List ((Nat × Key) × List Nat)
  /-- `effect.deps` bookkeeping: effect id → keys of dep records it was
  added to during its last run. -/
  effectDeps : List (Nat × List (Nat × Key))
  /-- effect id → body. -/
  bodies : List (Nat × List Instr)
  /-- `updateQueue` (a JS `Set`): insertion-ordered, duplicate-free. -/
  updateQueue : List Nat
  isFlushPending : Bool
  currentEffect : Option Nat
  /-- `reactiveMap`: raw object id → its unique proxy id. -/
  reactiveMap : List (Nat × Nat)
  /-- proxy id → underlying raw target id (a proxy answers `__isReactive`). -/
  proxyTarget : List (Nat × Nat)
  /-- `parentMap`: raw child object id → (parent target id, parent key). -/
  parentMap : List (Nat × (Nat × Key))
  /-- ids an `Array.isArray` test reports as arrays. -/
  arrSet : List Nat
  /-- fresh-id supply for newly created proxies. -/
  nextId : Nat
  /-- execution log: ids of effects in the order their bodies ran. -/
  log : List Nat
deriving Repr, DecidableEq

namespace RSys

/-- Read a property off the raw heap (`target[key]`, missing = undefined). -/
def heapGet (s : RSys) (t : Nat) (k : Key) : Val :=
  (alookup s.heap (t, k)).getD Val.undef

/-- Dependents currently recorded for `(t, k)` in `targetMap`. -/
def depsOf (s : RSys) (t : Nat) (k : Key) : List Nat :=
  (alookup s.targetMap (t, k)).getD []

/-- Keys recorded in `effect.deps` for effect `e`. -/
def effectDepsOf (s : RSys) (e : Nat) : List (Nat × Key) :=
  (alookup s.effectDeps e).getD []

/-- `track(target, key)`: no-op without an active effect; otherwise add the
current effect to the dep record for `(target, key)` (a `Set`, so
duplicate-free) and push that record onto `effect.deps`. -/
def track (s : RSys) (t : Nat) (k : Key) : RSys :=
  match s.currentEffect with
  | none => s
  | some e =>
      let deps := s.depsOf t k
      let deps' := if e ∈ deps then deps else deps ++ [e]
      { s with
        targetMap := aupdate s.targetMap (t, k) deps'
        effectDeps := aupdate s.effectDeps e (s.effectDepsOf e ++ [(t, k)]) }

/-- `queueJob(job)`: add to the pending set (dedup, insertion order) and
mark a flush as pending if none is. -/
def queueJob (s : RSys) (j : Nat) : RSys :=
  { s with
    updateQueue := if j ∈ s.updateQueue then s.updateQueue else s.updateQueue ++ [j]
    isFlushPending := true }

/-- `trigger(target, key)`: queue every dependent of `(target, key)` except
the currently running effect (`effect !== currentEffect`). -/
def trigger (s : RSys) (t : Nat) (k : Key) : RSys :=
  (s.depsOf t k).foldl
    (fun acc e => if acc.currentEffect = some e then acc else acc.queueJob e) s

/-- The `set` trap of the reactive proxy (acting on the raw target), lines
115–136 of `htmp.js`: assign, then — only when the value really changed, or
is a non-null object — trigger `(target, key)`, the `__array__` pseudo-key
for array length writes, and the parent record from `parentMap`. -/
def setTrap (s : RSys) (t : Nat) (k : Key) (v : Val) : RSys :=
  let old := s.heapGet t k
  let s₁ := { s with heap := aupdate s.heap (t, k) v }
  if old ≠ v ∨ v.isObjRef then
    let s₂ := s₁.trigger t k
    let s₃ := if t ∈ s.arrSet ∧ k = .length then s₂.trigger t .arrayMagic else s₂
    match alookup s.parentMap t with
    | some (p, pk) => s₃.trigger p pk
    | none => s₃
  else
    s₁

/-- `reactive(obj, parentTarget?, parentKey?)` restricted to object inputs:
a proxy is returned unchanged; a raw object already in `reactiveMap` gets
its parent link refreshed and its existing proxy returned; otherwise a fresh
proxy is allocated and registered.  Returns the proxy id. -/
def reactiveF (s : RSys) (o : Nat) (parent : Option (Nat × Key)) : Nat × RSys :=
  if (alookup s.proxyTarget o).isSome then
    (o, s)
  else
    match alookup s.reactiveMap o with
    | some p =>
        (p, match parent with
            | some pk => { s with parentMap := aupdate s.parentMap o pk }
            | none => s)
    | none =>
        let p := s.nextId
        let s₁ :=
          match parent with
          | some pk => { s with parentMap := aupdate s.parentMap o pk }
          | none => s
        (p, { s₁ with
              proxyTarget := aupdate s₁.proxyTarget p o
              reactiveMap := aupdate s₁.reactiveMap o p
              nextId := s.nextId + 1 })

/-- The `get` trap (acting on the raw target): track `(target, key)` (plus
`__array__` for arrays), read the raw value, and recursively wrap object
values, passing `(target, key)` as the parent link. -/
def getTrap (s : RSys) (t : Nat) (k : Key) : Val × RSys :=
  let s₁ := s.track t k
  let s₂ := if t ∈ s₁.arrSet then s₁.track t .arrayMagic else s₁
  match s₂.heapGet t k with
  | .obj o =>
      let (p, s₃) := s₂.reactiveF o (some (t, k))
      (.obj p, s₃)
  | v => (v, s₂)

/-- Write through a proxy: resolve the proxy's raw target and run the set
trap there (the trap's `target` argument is the raw object). -/
def setThrough (s : RSys) (p : Nat) (k : Key) (v : Val) : RSys :=
  match alookup s.proxyTarget p with
  | some t => s.setTrap t k v
  | none => s

/-- Read through a proxy. -/
def getThrough (s : RSys) (p : Nat) (k : Key) : Val × RSys :=
  match alookup s.proxyTarget p with
  | some t => s.getTrap t k
  | none => (.undef, s)

/-- `cleanupEffect(effect)`: remove the effect from every dep record listed
in `effect.deps`, then clear that list. -/
def cleanupEffect (s : RSys) (e : Nat) : RSys :=
  let s₁ := (s.effectDepsOf e).foldl
    (fun acc tk =>
      { acc with targetMap := aupdate acc.targetMap tk ((acc.depsOf tk.1 tk.2).filter (· ≠ e)) })
    s
  { s₁ with effectDeps := aupdate s₁.effectDeps e [] }

/-- Run one instruction of an effect body. -/
def runInstr (s : RSys) : Instr → RSys
  | .read t k => (s.getTrap t k).2
  | .readIf ft fk t k =>
      let (v, s₁) := s.getTrap ft fk
      if v.truthy then (s₁.getTrap t k).2 else s₁
  | .write t k v => s.setTrap t k v

/-- The wrapped `effectFn`: prune previous dependencies, install itself as
the active effect, run the body, restore the previous active effect.  The
run is recorded in the execution log. -/
def runEffect (s : RSys) (e : Nat) : RSys :=
  let s₁ := s.cleanupEffect e
  let prev := s₁.currentEffect
  let s₂ := { s₁ with currentEffect := some e, log := s₁.log ++ [e] }
  let body := (alookup s₂.bodies e).getD []
  let s₃ := body.foldl runInstr s₂
  { s₃ with currentEffect := prev }

/-- The microtask flush body queued by `queueJob`: snapshot the pending set,
clear it and the pending flag, then run every snapshotted job once in
insertion order. -/
def runFlush (s : RSys) : RSys :=
  let jobs := s.updateQueue
  let s₁ := { s with updateQueue := [], isFlushPending := false }
  jobs.foldl runEffect s₁

/-- Apply a sequence of proxied property writes (one synchronous turn). -/
def applyWrites (s : RSys) : List (Nat × Key × Val) → RSys
  | [] => s
  | (t, k, v) :: rest => (s.setTrap t k v).applyWrites rest

/-- Effects notified by a single proxied write, read off the pre-write
state: when the set trap's change test passes, the dependents of the written
key, then (for array length writes) of the `__array__` pseudo-key, then of
the parent record.  This is the specification-side mirror of `setTrap`'s
trigger cascade. -/
def writeNotifies (s : RSys) (t : Nat) (k : Key) (v : Val) : List Nat :=
  if s.heapGet t k ≠ v ∨ v.isObjRef then
    s.depsOf t k
      ++ (if t ∈ s.arrSet ∧ k = Key.length then s.depsOf t .arrayMagic else [])
      ++ (match alookup s.parentMap t with
          | some (p, pk) => s.depsOf p pk
          | none => [])
  else []

/-- All effects notified over a synchronous sequence of writes (the heap
evolves between writes; dependency records do not). -/
def touchedEffects (s : RSys) : List (Nat × Key × Val) → List Nat
  | [] => []
  | (t, k, v) :: rest => s.writeNotifies t k v ++ (s.setTrap t k v).touchedEffects rest

/-- The fold inside `trigger`, over an arbitrary dependents list. -/
def triggerFold (acc : RSys) (l : List Nat) : RSys :=
  l.foldl (fun acc e => if acc.currentEffect = some e then acc else acc.queueJob e) acc

/-- The scheduler-visible projection of the state: pending queue and flag. -/
def qp (s : RSys) : List Nat × Bool := (s.updateQueue, s.isFlushPending)

/-- Well-formedness of the proxy registries: every registered proxy id is
below the fresh-id supply, and `reactiveMap` entries point back to a proxy
whose recorded target is the raw object. -/
def WFreactive (s : RSys) : Prop :=
  (∀ pr ∈ s.proxyTarget, pr.1 < s.nextId) ∧
  (∀ pr ∈ s.reactiveMap, pr.1 < s.nextId ∧ alookup s.proxyTarget pr.2 = some pr.1)

instance (s : RSys) : Decidable s.WFreactive := by
  unfold WFreactive
  exact inferInstance

end RSys

/-- Insertion-ordered set-union: add elements of `l` to `acc`, skipping ones
already present.  Mirrors how a JS `Set` accumulates members. -/
def dedupAdd (acc l : List Nat) : List Nat :=
  l.foldl (fun q e => if e ∈ q then q else q ++ [e]) acc

/-- First-occurrence deduplication of a list. -/
def dedupFirst (l : List Nat) : List Nat := dedupAdd [] l

/-- The pure content of `cleanupEffect`'s fold: for every key in `l`,
remove effect `e` from that key's dependent set. -/
def pruneMap (e : Nat) (l : List (Nat × Key)) (m : List ((Nat × Key) × List Nat)) :
    List ((Nat × Key) × List Nat) :=
  l.foldl (fun m tk => aupdate m tk (((alookup m tk).getD []).filter (· ≠ e))) m

/-- Concrete instance for the batching law: effect `7` depends on keys
`x` (= `named 0`) and `y` (= `named 1`) of object `0`. -/
def sampleC1 : RSys :=
  { heap := [((0, .named 0), .prim 0), ((0, .named 1), .prim 0)]
    targetMap := [((0, .named 0), [7]), ((0, .named 1), [7])]
    effectDeps := [(7, [(0, .named 0), (0, .named 1)])]
    bodies := [(7, [.read 0 (.named 0), .read 0 (.named 1)])]
    updateQueue := [], isFlushPending := false
    currentEffect := none, reactiveMap := [(0, 1)], proxyTarget := [(1, 0)]
    parentMap := [], arrSet := [], nextId := 2, log := [] }

/-- Two synchronous writes, both touching effect `7`'s dependencies. -/
def sampleC1Writes : List (Nat × Key × Val) :=
  [(0, .named 0, .prim 1), (0, .named 1, .prim 2)]

/-- Concrete instance for flush re-entrancy: pending effect `5` whose body
writes `(0, x)`, on which effect `6` depends. -/
def sampleC8 : RSys :=
  { heap := [((0, .named 0), .prim 0)]
    targetMap := [((0, .named 0), [6])]
    effectDeps := []
    bodies := [(5, [.write 0 (.named 0) (.prim 1)])]
    updateQueue := [5], isFlushPending := true
    currentEffect := none, reactiveMap := [(0, 1)], proxyTarget := [(1, 0)]
    parentMap := [], arrSet := [], nextId := 2, log := [] }

/-- Concrete instance for the reactive wrapping claims: raw object `1`
already wrapped as proxy `10`; raw object `2` not yet wrapped. -/
def sampleC4 : RSys :=
  { heap := [], targetMap := [], effectDeps := [], bodies := []
    updateQueue := [], isFlushPending := false, currentEffect := none
    reactiveMap := [(1, 10)], proxyTarget := [(10, 1)]
    parentMap := [], arrSet := [], nextId := 11, log := [] }

/-- JS `String.prototype.lastIndexOf` for one character: index of the last
occurrence, `-1` when absent. -/
def lastIndexOf : List Char → Char → Int
  | [], _ => -1
  | a :: rest, c =>
      let r := lastIndexOf rest c
      if r ≥ 0 then r + 1 else if a = c then 0 else -1

/-- `Template._isAttributePosition`: the interpolation point is inside a
start tag iff the last `<` of the accumulated markup comes after its last
`>`. -/
def isAttributePosition (html : List Char) : Bool :=
  lastIndexOf html '<' > lastIndexOf html '>'

/-- Right-to-left tag scan (on the reversed string): the first of `<`/`>`
met from the end is a `<`.  Reformulation target for the classification. -/
def tailScan : List Char → Bool
  | [] => false
  | c :: rest => if c = '<' then true else if c = '>' then false else tailScan rest

/-- `MARKER_PREFIX + i + MARKER_SUFFIX` from `htmp.js`. -/
def markerStr (i : Nat) : String := "\x7b\x7blit-" ++ Nat.repr i ++ "\x7d\x7d"

/-- The marker-insertion walk of `Template._createElement`: for each
interpolation, record whether it compiled to an attribute-value placeholder
(`true`) or a comment marker (`false`), together with the accumulated
markup prefix at the moment of classification.  The chosen marker text is
appended before the next segment is processed, as in the source. -/
def compileMarks (i : Nat) : List String → List Char → List (Bool × List Char)
  | [], _ => []
  | [_], _ => []
  | sPart :: rest, html =>
      let html₁ := html ++ sPart.toList
      let attr := isAttributePosition html₁
      let mk := if attr then markerStr i else "<!--" ++ markerStr i ++ "-->"
      (attr, html₁) :: compileMarks (i + 1) rest (html₁ ++ mk.toList)

/-- The claim's literal side condition: the most recent unmatched `<`
exists (the last `<` has no later `>`), the most recent `>` exists, and the
former's index precedes (is smaller than) the latter's. -/
def litCond (s : List Char) : Bool :=
  (lastIndexOf s '<' ≥ 0 && lastIndexOf s '>' < lastIndexOf s '<')
  && (lastIndexOf s '>' ≥ 0)
  && (lastIndexOf s '<' < lastIndexOf s '>')

mutual

/-- Values flowing through template parts.  Composite values (`tmpl`,
`arr`, `rawHtml`) are JS objects; for the claims below the model equates
`===` with structural equality, which is sound here because every deep
comparison in the source coincides with structural equality on this value
grammar.  `tmpl` mirrors a `TemplateResult`: `sid` is the identity of its
template-literal segment array (identity-stable per call site), `segs` its
contents. -/
inductive PVal where
  | undef
  | vnull
  | num (n : Int)
  | str (s : String)
  | boolv (b : Bool)
  | tmpl (sid : Nat) (segs : List String) (values : PList)
  | arr (elems : PList)
  | rawHtml (html : String)
deriving Repr, DecidableEq

/-- A JS array of part values (the mutual companion of `PVal`). -/
inductive PList where
  | nil
  | cons (head : PVal) (tail : PList)
deriving Repr, DecidableEq

end

/-- View a `PList` as a Lean list. -/
def PList.toList : PList → List PVal
  | .nil => []
  | .cons a t => a :: t.toList

/-- Build a `PList` from a Lean list. -/
def PList.ofList : List PVal → PList
  | [] => .nil
  | a :: t => .cons a (PList.ofList t)

/-- `typeof x === 'object' && x !== null` on part values. -/
def PVal.isObject : PVal → Bool
  | .tmpl _ _ _ => true
  | .arr _ => true
  | .rawHtml _ => true
  | _ => false

/-- `typeof x === 'object'` (null included). -/
def PVal.isObjectOrNull : PVal → Bool
  | .vnull => true
  | v => v.isObject

/-- JS truthiness on part values (`!obj` test in `_deepEqual`). -/
def PVal.truthyP : PVal → Bool
  | .undef => false
  | .vnull => false
  | .num n => n ≠ 0
  | .str s => s ≠ ""
  | .boolv b => b
  | _ => true

/-- `String(v)` for the primitive-ish values the diff stringifies. -/
def PVal.display : PVal → String
  | .undef => "undefined"
  | .vnull => "null"
  | .num n => toString n
  | .str s => s
  | .boolv b => if b then "true" else "false"
  | .tmpl _ _ _ => "[object Object]"
  | .arr _ => ""
  | .rawHtml _ => "[object Object]"

mutual

/-- `TemplatePart._arraysEqual`. -/
def arraysEqual : PList → PList → Bool
  | .nil, .nil => true
  | .cons a as, .cons b bs => arrayElemEqual a b && arraysEqual as bs
  | _, _ => false

/-- One element comparison inside `_arraysEqual`: nested template results
compare by segment-array identity plus recursive value equality; otherwise
`===` first, then arrays recurse and other objects fall to `_deepEqual`. -/
def arrayElemEqual : PVal → PVal → Bool
  | .tmpl i1 _ v1, .tmpl i2 _ v2 => i1 == i2 && arraysEqual v1 v2
  | a, b =>
      if a = b then true
      else if a.isObject && b.isObject then
        match a, b with
        | .arr xs, .arr ys => arraysEqual xs ys
        | a, b => deepEqual a b
      else false

/-- `TemplatePart._deepEqual`. -/
def deepEqual : PVal → PVal → Bool
  | o1, o2 =>
      if o1 = o2 then true
      else if !o1.truthyP || !o2.truthyP then false
      else if !o1.isObject || !o2.isObject then false
      else match o1, o2 with
        | .tmpl i1 _ v1, .tmpl i2 _ v2 => i1 == i2 && arraysEqual v1 v2
        | .arr xs, .arr ys => arraysEqual xs ys
        | .rawHtml h1, .rawHtml h2 => h1 == h2
        | _, _ => false

end

/-- `TemplatePart._itemsEqual`. -/
def itemsEqual (a b : PVal) : Bool :=
  if a = b then true
  else match a, b with
    | .tmpl i1 _ v1, .tmpl i2 _ v2 => i1 == i2 && arraysEqual v1 v2
    | a, b =>
        if a.isObjectOrNull && b.isObjectOrNull then deepEqual a b
        else false

/-- `TemplatePart`'s mutable slot state: the last-committed value
(`undefined` before the first commit). -/
structure Part where
  value : PVal
deriving Repr, DecidableEq

/-- The deep equal-value suppression checks of `setValue`: with both
values defined, equal-content arrays, nested template results with
identical descriptor and equal values, and raw-HTML wrappers with equal
markup are treated as unchanged. -/
def skipCheck (old v : PVal) : Bool :=
  if old ≠ PVal.undef ∧ v ≠ PVal.undef then
    match old, v with
    | .arr xs, .arr ys => arraysEqual xs ys
    | .tmpl i1 _ v1, .tmpl i2 _ v2 => i1 == i2 && arraysEqual v1 v2
    | .rawHtml h1, .rawHtml h2 => h1 == h2
    | _, _ => false
  else false

/-- `TemplatePart.setValue`: reference-equal values are skipped; otherwise
the deep suppression checks run; any surviving value is stored and
committed.  Returns the updated part and whether `commit()` ran. -/
def Part.setValue (p : Part) (v : PVal) : Part × Bool :=
  if p.value = v then (p, false)
  else if skipCheck p.value v then (p, false)
  else ({ value := v }, true)

/-- A `TemplateResult`: identity-stable segment array (`stringsId` its
identity, `segs` its contents) plus interpolated values. -/
structure TRes where
  stringsId : Nat
  segs : List String
  values : List PVal
deriving Repr, DecidableEq

/-- A `TemplateInstance`: the descriptor it was built from and its parts
(sparse: a slot optimized away holds `none`). -/
structure Inst where
  stringsId : Nat
  parts : List (Option Part)
deriving Repr, DecidableEq

/-- A render container (`container._templateInstance`). -/
structure Container where
  inst : Option Inst
deriving Repr, DecidableEq

/-- `TemplateInstance.update`: feed each part its positional value,
counting how many commits happen. -/
def updateParts : List (Option Part) → List PVal → List (Option Part) × Nat
  | [], _ => ([], 0)
  | op :: ps, vs =>
      let v := vs.headD PVal.undef
      let (rest, n) := updateParts ps vs.tail
      match op with
      | none => (none :: rest, n)
      | some p =>
          let (p', c) := p.setValue v
          (some p' :: rest, n + (if c then 1 else 0))

/-- Fresh-instance path of `render`: clone the descriptor, materialize one
part per slot (initial value `undefined`), bind values, mount. -/
def renderFresh (r : TRes) : Container × Nat :=
  let parts0 : List (Option Part) := r.values.map (fun _ => some { value := PVal.undef })
  let (parts', n) := updateParts parts0 r.values
  ({ inst := some { stringsId := r.stringsId, parts := parts' } }, n)

/-- `render(result, container)`: reuse the instance when the descriptor
matches, otherwise discard and rebuild.  Returns the new container state
and the number of part commits performed. -/
def renderC (r : TRes) (c : Container) : Container × Nat :=
  match c.inst with
  | some inst =>
      if inst.stringsId = r.stringsId then
        let (parts', n) := updateParts inst.parts r.values
        ({ inst := some { stringsId := inst.stringsId, parts := parts' } }, n)
      else renderFresh r
  | none => renderFresh r

/-- Does a list start with the given pattern? -/
def startsWithL : List Char → List Char → Bool
  | _, [] => true
  | [], _ :: _ => false
  | c :: s, p :: ps => c = p && startsWithL s ps

/-- Substring occurrence (`String.prototype.includes`). -/
def containsSub : List Char → List Char → Bool
  | [], pat => pat.isEmpty
  | c :: rest, pat => startsWithL (c :: rest) pat || containsSub rest pat

/-- `escapeHtml`'s per-character replacement (the regex class `[&<>"']`):
`&amp;`, `&lt;`, `&gt;`, `&quot;`, `&#39;`. -/
def escapeChar (c : Char) : List Char :=
  if c = '&' then ['&', 'a', 'm', 'p', ';']
  else if c = '<' then ['&', 'l', 't', ';']
  else if c = '>' then ['&', 'g', 't', ';']
  else if c = '"' then ['&', 'q', 'u', 'o', 't', ';']
  else if c = '\'' then ['&', '#', '3', '9', ';']
  else [c]

/-- `escapeHtml` from `htmp.js`: global single-character replacement. -/
def escapeHtml (s : String) : String := ⟨(s.toList.map escapeChar).flatten⟩

/-- Inverse of the five entity replacements, for the round-trip theorem. -/
def decodeEntities : List Char → List Char
  | [] => []
  | c :: rest =>
      if c = '&' then
        if startsWithL rest ['a', 'm', 'p', ';'] then '&' :: decodeEntities (rest.drop 4)
        else if startsWithL rest ['l', 't', ';'] then '<' :: decodeEntities (rest.drop 3)
        else if startsWithL rest ['g', 't', ';'] then '>' :: decodeEntities (rest.drop 3)
        else if startsWithL rest ['q', 'u', 'o', 't', ';'] then '"' :: decodeEntities (rest.drop 5)
        else if startsWithL rest ['#', '3', '9', ';'] then '\'' :: decodeEntities (rest.drop 4)
        else c :: decodeEntities rest
      else c :: decodeEntities rest
termination_by l => l.length
decreasing_by
  all_goals simp [List.length_drop]
  all_goals omega

mutual

/-- The `/<[^>]+>/` test of `_isHTMLString`: a `<`, then one or more
non-`>` characters, then `>`, anywhere in the string. -/
def hasTagLike : List Char → Bool
  | [] => false
  | c :: rest => if c = '<' then insideTag rest false else hasTagLike rest

/-- After a candidate `<`: `seen` records whether a non-`>` character has
been consumed; an immediate `>` aborts this candidate and the scan resumes
after it. -/
def insideTag : List Char → Bool → Bool
  | [], _ => false
  | c :: rest, seen =>
      if c = '>' then (if seen then true else hasTagLike rest)
      else insideTag rest true

end

/-- `TemplatePart._isHTMLString`: only strings qualify; a string carrying
the `[object Object]` misuse marker is rejected (with a logged hint),
otherwise the tag-like regex decides. -/
def PVal.isHTMLStringB : PVal → Bool
  | .str s =>
      if containsSub s.toList ("[object Object]").toList then false
      else hasTagLike s.toList
  | _ => false

/-- A rendered child of the list container: an element carrying a
`_templateInstance` property, a text node, or an element without one.
`render` assigns `_templateInstance` only to its own target container;
`_updateArray` renders list items into a throwaway `tempContainer` div
and moves only the children out, so the children it creates for template
items are plain elements (`elemNode`) — `instNode` models the property
the diff tests for but never finds on its own children. -/
inductive ChildNode where
  | instNode (sid : Nat) (values : PList)
  | textNode (s : String)
  | elemNode
deriving Repr, DecidableEq

/-- DOM-operation accounting for one `_updateArray` call. -/
structure DomOps where
  instUpdates : Nat := 0
  textUpdates : Nat := 0
  replaces : Nat := 0
  appends : Nat := 0
  removes : Nat := 0
  bulkHTML : Option String := none
deriving Repr, DecidableEq

def DomOps.add (a b : DomOps) : DomOps :=
  { instUpdates := a.instUpdates + b.instUpdates
    textUpdates := a.textUpdates + b.textUpdates
    replaces := a.replaces + b.replaces
    appends := a.appends + b.appends
    removes := a.removes + b.removes
    bulkHTML := a.bulkHTML <|> b.bulkHTML }

def FAST_LIST_THRESHOLD : Nat := 50000

def CHUNK_THRESHOLD : Nat := 100000

/-- JS whitespace for `String.prototype.trim` (ASCII part). -/
def isJsSpace (c : Char) : Bool := c = ' ' ∨ c = '\t' ∨ c = '\n' ∨ c = '\r'

def trimL (s : List Char) : List Char :=
  ((s.dropWhile isJsSpace).reverse.dropWhile isJsSpace).reverse

def isTagChar (c : Char) : Bool := c.isAlpha || c.isDigit || c = '-'

/-- `^<([a-zA-Z0-9-]+)>$` on the trimmed opening segment. -/
def parseSimpleTag (o : List Char) : Option (List Char) :=
  match o with
  | '<' :: rest =>
      let tag := rest.dropLast
      if rest.getLast? = some '>' ∧ tag ≠ [] ∧ tag.all isTagChar then some tag else none
  | _ => none

/-- `isSimpleWrapperTemplate`: exactly two segments forming `<tag>`…`</tag>`
(trimmed); returns the untrimmed open/close segments. -/
def simpleWrapper (segs : List String) : Option (String × String) :=
  match segs with
  | [s0, s1] =>
      match parseSimpleTag (trimL s0.toList) with
      | some tag =>
          if trimL s1.toList = '<' :: '/' :: (tag ++ ['>']) then some (s0, s1) else none
      | none => none
  | _ => none

/-- `newArray[i].values[0]`. -/
def tmplHeadVal : PVal → PVal
  | .tmpl _ _ (.cons v _) => v
  | _ => PVal.undef

/-- One escaped item of the homogeneous fast path:
`open + escapeHtml(v == null ? '' : v) + close`. -/
def fastItemHTML (op cl : String) (it : PVal) : String :=
  let v := tmplHeadVal it
  op ++ escapeHtml (if v = .undef ∨ v = .vnull then "" else v.display) ++ cl

/-- The concatenated markup assigned in the fast path (built in one pass,
or in time-sliced chunks for very large first renders — the chunks
concatenate to the same string, so time slicing is not modelled). -/
def bulkJoinHTML (op cl : String) (arr : List PVal) : String :=
  String.join (arr.map (fastItemHTML op cl))

/-- The homogeneity loop over indices `1..`: every further item is a
template result sharing the base segment-array identity with exactly one
interpolated value. -/
def homogeneousFrom (bid : Nat) (items : List PVal) : Bool :=
  items.all (fun it =>
    match it with
    | .tmpl i _ vs => i == bid && vs.toList.length == 1
    | _ => false)

/-- `Math.max(10, Math.floor(newLength * 0.1))`. -/
def maxChangesForDiff (n : Nat) : Nat := max 10 (n / 10)

/-- Number of indices whose items differ per `_itemsEqual` (the source
counts with an early break past the limit; only the comparison with the
limit is observable, which this total count preserves). -/
def countChanged (newA cached : List PVal) : Nat :=
  (newA.zip cached).countP (fun pr => !itemsEqual pr.1 pr.2)

/-- The large-homogeneous-list fast path of `_updateArray`.  `none` means
the conditions fail (or few items changed) and the per-index diff below
runs instead. -/
def fastPath (cached newArray : List PVal) : Option (List ChildNode × DomOps) :=
  if newArray.length ≥ FAST_LIST_THRESHOLD then
    match newArray with
    | (PVal.tmpl bid bsegs _) :: tl =>
        match simpleWrapper bsegs with
        | some (op, cl) =>
            if homogeneousFrom bid tl then
              if cached.length = 0 then
                some (newArray.map (fun _ => ChildNode.elemNode),
                      { bulkHTML := some (bulkJoinHTML op cl newArray) })
              else if newArray.length = cached.length then
                if countChanged newArray cached ≤ maxChangesForDiff newArray.length then
                  none
                else
                  some (newArray.map (fun _ => ChildNode.elemNode),
                        { bulkHTML := some (bulkJoinHTML op cl newArray) })
              else
                some (newArray.map (fun _ => ChildNode.elemNode),
                      { bulkHTML := some (bulkJoinHTML op cl newArray) })
            else none
        | none => none
    | _ => none
  else none

/-- One step of the per-index diff for a changed item at an existing
child: a template result updates the child's `_templateInstance` in place
when the child has one with a matching descriptor, but the children
`_updateArray` itself builds never carry one (the instance stays on the
discarded `tempContainer`), so for them every changed template item is
re-rendered into a fresh fragment and swapped in via `replaceChild`;
tag-like strings are parsed and replace the child; plain values mutate an
existing text node or replace the child with a fresh one. -/
def diffOne (child : ChildNode) (newItem : PVal) : ChildNode × DomOps :=
  match newItem with
  | .tmpl sid _ vs =>
      match child with
      | .instNode csid _ =>
          if csid = sid then (.instNode sid vs, { instUpdates := 1 })
          else (.elemNode, { replaces := 1 })
      | _ => (.elemNode, { replaces := 1 })
  | _ =>
      if newItem.isHTMLStringB then (.elemNode, { replaces := 1 })
      else match child with
        | .textNode _ => (.textNode newItem.display, { textUpdates := 1 })
        | _ => (.textNode newItem.display, { replaces := 1 })

/-- Children appended for surplus new items (`newLen > oldLen`); null and
undefined surplus items append nothing.  A template item is rendered into
a temporary container whose children are moved to the fragment — the
container keeps the `_templateInstance`, so the appended nodes are plain
elements without one. -/
def appendPhase : List PVal → List ChildNode × DomOps
  | [] => ([], {})
  | it :: rest =>
      let (cs, ops) := appendPhase rest
      match it with
      | .tmpl _ _ _ => (.elemNode :: cs, { ops with appends := ops.appends + 1 })
      | .undef => (cs, ops)
      | .vnull => (cs, ops)
      | it =>
          if it.isHTMLStringB then (.elemNode :: cs, { ops with appends := ops.appends + 1 })
          else (.textNode it.display :: cs, { ops with appends := ops.appends + 1 })

/-- The per-index walk over `0..min(newLen, oldLen)`, then the append or
trailing-removal phase. -/
def diffLoop : List ChildNode → List PVal → List PVal → List ChildNode × DomOps
  | children, _ :: _, [] =>
      -- newLen < oldLen: remove the trailing children beyond the new length
      ([], { removes := children.length })
  | children, [], newRest =>
      -- newLen > oldLen (or both exhausted): append surplus items
      let (cs, ops) := appendPhase newRest
      (children ++ cs, ops)
  | children, oldItem :: oldRest, newItem :: newRest =>
      match children with
      | child :: crest =>
          let (c', d) :=
            if itemsEqual newItem oldItem then (child, ({} : DomOps))
            else diffOne child newItem
          let (rest', ops) := diffLoop crest oldRest newRest
          (c' :: rest', d.add ops)
      | [] =>
          -- missing child: the source appends the freshly built node
          let (cs, ops) := appendPhase (newItem :: newRest)
          (cs, ops)

/-- `TemplatePart._updateArray`: reference-equal array short-circuit, the
large-list fast path, then the per-index diff with append/removal phases.
`sameSource` models the `_cachedArraySource === newArray` identity test. -/
def updateArray (sameSource : Bool) (children : List ChildNode)
    (cached newArray : List PVal) : List ChildNode × DomOps :=
  if sameSource then (children, {})
  else
    match fastPath cached newArray with
    | some res => res
    | none => diffLoop children cached newArray

/-- A simple-wrapper list item for the fast-path witness:
`html`<li>${"<b>hi</b>"}</li>``. -/
def sampleC10Item : PVal := .tmpl 1 ["<li>", "</li>"] (.cons (.str "<b>hi</b>") .nil)

/-- Is the value a `TemplateResult`? -/
def PVal.isTmpl : PVal → Bool
  | .tmpl _ _ _ => true
  | _ => false

/-- Initial state for the dependency-pruning scenario: object `o` holds a
truthy flag at key `kf` and a value at key `ka`; effect `eid`'s body reads
`(o, ka)` only when the flag `(o, kf)` is truthy. -/
def condState (o : Nat) (kf ka : Key) (eid : Nat) : RSys :=
  { heap := [((o, kf), .prim 1), ((o, ka), .prim 0)]
    targetMap := [], effectDeps := [], bodies := [(eid, [.readIf o kf o ka])]
    updateQueue := [], isFlushPending := false, currentEffect := none
    reactiveMap := [], proxyTarget := [], parentMap := [], arrSet := []
    nextId := 0, log := [] }

/-- The pruning scenario after the first run, the flag write (flag flips to
falsy `0`), and the resulting flush re-running the effect. -/
def condStateAfterFlush (o : Nat) (kf ka : Key) (eid : Nat) : RSys :=
  (((condState o kf ka eid).runEffect eid).setTrap o kf (.prim 0)).runFlush

/-- Concrete instance for the cleanup half of dependency pruning: effect
`3` recorded as depending on `(0, x)`. -/
def sampleC5 : RSys :=
  { heap := [((0, .named 0), .prim 1)]
    targetMap := [((0, .named 0), [3])]
    effectDeps := [(3, [(0, .named 0)])]
    bodies := [], updateQueue := [], isFlushPending := false
    currentEffect := none, reactiveMap := [], proxyTarget := []
    parentMap := [], arrSet := [], nextId := 0, log := [] }

/-- Concrete instance for parent bubbling: raw object `0` stored as
property `named 1` of parent `2`, with a recorded parent link; effect `8`
depends on the parent record, effect `9` on the child's own key. -/
def sampleC9 : RSys :=
  { heap := [((2, .named 1), .obj 0)]
    targetMap := [((2, .named 1), [8]), ((0, .named 0), [9])]
    effectDeps := [], bodies := [], updateQueue := [], isFlushPending := false
    currentEffect := none, reactiveMap := [], proxyTarget := [(1, 0)]
    parentMap := [(0, (2, .named 1))], arrSet := [], nextId := 3, log := [] }

/-- Concrete instance for `setTrap_identity_skip`: a state holding
`{x: 5}` with effect `7` depending on `(0, x)`. -/
def sampleC7 : RSys :=
  { heap := [((0, .named 0), .prim 5)]
    targetMap := [((0, .named 0), [7])]
    effectDeps := [], bodies := [], updateQueue := [], isFlushPending := false
    currentEffect := none, reactiveMap := [], proxyTarget := [(1, 0)]
    parentMap := [], arrSet := [], nextId := 2, log := [] }

theorem alookup_aupdate_self {α β : Type} [DecidableEq α] (l : List (α × β)) (x : α) (v : β) :
    alookup (aupdate l x v) x = some v := by
  induction l with
  | nil => simp [alookup, aupdate]
  | cons ab l ih =>
      rcases ab with ⟨a, b⟩
      by_cases h : a = x
      · simp [alookup, aupdate, h]
      · simp only [aupdate, if_neg h, alookup]
        exact ih

theorem alookup_aupdate_ne {α β : Type} [DecidableEq α] (l : List (α × β)) (x y : α) (v : β)
    (h : x ≠ y) : alookup (aupdate l x v) y = alookup l y := by
  induction l with
  | nil => simp [alookup, aupdate, h]
  | cons ab l ih =>
      rcases ab with ⟨a, b⟩
      by_cases ha : a = x
      · subst ha
        simp [alookup, aupdate, h]
      · simp only [aupdate, if_neg ha, alookup]
        by_cases hy : a = y
        · rw [if_pos hy, if_pos hy]
        · rw [if_neg hy, if_neg hy]
          exact ih

theorem alookup_mem {α β : Type} [DecidableEq α] {l : List (α × β)} {x : α} {y : β}
    (h : alookup l x = some y) : (x, y) ∈ l := by
  induction l with
  | nil => simp [alookup] at h
  | cons ab l ih =>
      rcases ab with ⟨a, b⟩
      simp only [alookup] at h
      by_cases ha : a = x
      · rw [if_pos ha] at h
        subst ha
        cases h
        exact List.mem_cons_self _ _
      · rw [if_neg ha] at h
        exact List.mem_cons_of_mem _ (ih h)

theorem dedupAdd_nil (acc : List Nat) : dedupAdd acc [] = acc := rfl

theorem dedupAdd_cons (acc : List Nat) (e : Nat) (l : List Nat) :
    dedupAdd acc (e :: l) = dedupAdd (if e ∈ acc then acc else acc ++ [e]) l := rfl

theorem dedupAdd_append (acc l₁ l₂ : List Nat) :
    dedupAdd acc (l₁ ++ l₂) = dedupAdd (dedupAdd acc l₁) l₂ := by
  simp [dedupAdd, List.foldl_append]

theorem mem_dedupAdd (acc l : List Nat) (e : Nat) :
    e ∈ dedupAdd acc l ↔ e ∈ acc ∨ e ∈ l := by
  induction l generalizing acc with
  | nil => simp [dedupAdd]
  | cons a l ih =>
      rw [dedupAdd_cons, ih]
      by_cases ha : a ∈ acc
      · simp only [if_pos ha]
        constructor
        · rintro (h | h)
          · exact Or.inl h
          · exact Or.inr (List.mem_cons_of_mem a h)
        · rintro (h | h)
          · exact Or.inl h
          · rcases List.mem_cons.mp h with h | h
            · exact Or.inl (h ▸ ha)
            · exact Or.inr h
      · simp only [if_neg ha, List.mem_append, List.mem_singleton, List.mem_cons]
        tauto

theorem nodup_dedupAdd (acc l : List Nat) (h : acc.Nodup) : (dedupAdd acc l).Nodup := by
  induction l generalizing acc with
  | nil => exact h
  | cons a l ih =>
      rw [dedupAdd_cons]
      by_cases ha : a ∈ acc
      · simpa [if_pos ha] using ih acc h
      · refine (if_neg ha) ▸ ih _ ?_
        simpa [List.nodup_append] using ⟨h, ha⟩

theorem nodup_dedupFirst (l : List Nat) : (dedupFirst l).Nodup :=
  nodup_dedupAdd [] l List.nodup_nil

theorem mem_dedupFirst (l : List Nat) (e : Nat) : e ∈ dedupFirst l ↔ e ∈ l := by
  simp [dedupFirst, mem_dedupAdd]

namespace RSys

/-- Generic preservation of a projection under a fold. -/
theorem foldl_proj_eq {α γ : Type} (f : RSys → α → RSys) (g : RSys → γ)
    (hf : ∀ s a, g (f s a) = g s) :
    ∀ (l : List α) (s : RSys), g (l.foldl f s) = g s := by
  intro l
  induction l with
  | nil => intro s; rfl
  | cons a l ih => intro s; rw [List.foldl_cons, ih, hf]

theorem queueJob_mem (s : RSys) (j e : Nat) :
    e ∈ (s.queueJob j).updateQueue ↔ e ∈ s.updateQueue ∨ e = j := by
  simp only [queueJob]
  by_cases h : j ∈ s.updateQueue
  · simp only [if_pos h]
    constructor
    · exact Or.inl
    · rintro (he | he)
      · exact he
      · exact he ▸ h
  · simp [if_neg h, or_comm]

theorem queueJob_currentEffect (s : RSys) (j : Nat) :
    (s.queueJob j).currentEffect = s.currentEffect := rfl

theorem trigger_eq_triggerFold (s : RSys) (t : Nat) (k : Key) :
    s.trigger t k = triggerFold s (s.depsOf t k) := rfl

theorem triggerFold_queue (l : List Nat) (acc : RSys) (h : acc.currentEffect = none) :
    (triggerFold acc l).updateQueue = dedupAdd acc.updateQueue l := by
  induction l generalizing acc with
  | nil => rfl
  | cons a l ih =>
      have hne : acc.currentEffect ≠ some a := by simp [h]
      rw [triggerFold, List.foldl_cons, if_neg hne]
      rw [show (List.foldl _ _ l) = triggerFold (acc.queueJob a) l from rfl]
      rw [ih _ (by simp [queueJob_currentEffect, h]), dedupAdd_cons]
      rfl

theorem triggerFold_currentEffect (l : List Nat) (acc : RSys) :
    (triggerFold acc l).currentEffect = acc.currentEffect := by
  refine foldl_proj_eq _ _ ?_ l acc
  intro s a
  by_cases h : s.currentEffect = some a <;> simp [h, queueJob_currentEffect]

/-- `trigger` (and hence a whole `setTrap`) only ever touches `updateQueue`
and `isFlushPending`; this bundles the frame facts needed later. -/
theorem triggerFold_frame (l : List Nat) (acc : RSys) :
    (triggerFold acc l).heap = acc.heap ∧
    (triggerFold acc l).targetMap = acc.targetMap ∧
    (triggerFold acc l).effectDeps = acc.effectDeps ∧
    (triggerFold acc l).bodies = acc.bodies ∧
    (triggerFold acc l).reactiveMap = acc.reactiveMap ∧
    (triggerFold acc l).proxyTarget = acc.proxyTarget ∧
    (triggerFold acc l).parentMap = acc.parentMap ∧
    (triggerFold acc l).arrSet = acc.arrSet ∧
    (triggerFold acc l).nextId = acc.nextId ∧
    (triggerFold acc l).log = acc.log := by
  refine ⟨?_, ?_, ?_, ?_, ?_, ?_, ?_, ?_, ?_, ?_⟩ <;>
    · refine foldl_proj_eq _ _ ?_ l acc
      intro s a
      by_cases h : s.currentEffect = some a <;> simp [h, queueJob]

theorem triggerFold_queue_mono (l : List Nat) (acc : RSys) (e : Nat)
    (h : e ∈ acc.updateQueue) : e ∈ (triggerFold acc l).updateQueue := by
  induction l generalizing acc with
  | nil => exact h
  | cons a l ih =>
      rw [triggerFold, List.foldl_cons]
      by_cases hc : acc.currentEffect = some a
      · rw [if_pos hc]; exact ih acc h
      · rw [if_neg hc]
        exact ih _ ((queueJob_mem acc a e).mpr (Or.inl h))

theorem triggerFold_mem (l : List Nat) (acc : RSys) (e : Nat)
    (hc : acc.currentEffect = none) (he : e ∈ l) :
    e ∈ (triggerFold acc l).updateQueue := by
  induction l generalizing acc with
  | nil => cases he
  | cons a l ih =>
      have hne : acc.currentEffect ≠ some a := by simp [hc]
      rw [triggerFold, List.foldl_cons, if_neg hne]
      rcases List.mem_cons.mp he with h | h
      · exact triggerFold_queue_mono l _ e ((queueJob_mem acc a e).mpr (Or.inr h))
      · exact ih _ (by simp [queueJob_currentEffect, hc]) h

theorem trigger_queue_mono (s : RSys) (t : Nat) (k : Key) (e : Nat)
    (h : e ∈ s.updateQueue) : e ∈ (s.trigger t k).updateQueue :=
  triggerFold_queue_mono _ s e h

theorem trigger_currentEffect (s : RSys) (t : Nat) (k : Key) :
    (s.trigger t k).currentEffect = s.currentEffect :=
  triggerFold_currentEffect _ s

/-- heap update inside `setTrap` leaves the dependency records alone. -/
theorem depsOf_heapUpdate (s : RSys) (t : Nat) (k : Key) (v : Val) (t' : Nat) (k' : Key) :
    ({ s with heap := aupdate s.heap (t, k) v } : RSys).depsOf t' k' = s.depsOf t' k' := rfl

theorem trigger_targetMap (s : RSys) (t : Nat) (k : Key) :
    (s.trigger t k).targetMap = s.targetMap := (triggerFold_frame _ _).2.1

theorem trigger_log (s : RSys) (t : Nat) (k : Key) :
    (s.trigger t k).log = s.log := (triggerFold_frame _ _).2.2.2.2.2.2.2.2.2

theorem trigger_depsOf (s : RSys) (t : Nat) (k : Key) (t' : Nat) (k' : Key) :
    (s.trigger t k).depsOf t' k' = s.depsOf t' k' := by
  simp [depsOf, trigger_targetMap]

theorem trigger_heap (s : RSys) (t : Nat) (k : Key) :
    (s.trigger t k).heap = s.heap := (triggerFold_frame _ _).1

theorem trigger_reactiveMap (s : RSys) (t : Nat) (k : Key) :
    (s.trigger t k).reactiveMap = s.reactiveMap := (triggerFold_frame _ _).2.2.2.2.1

theorem trigger_proxyTarget (s : RSys) (t : Nat) (k : Key) :
    (s.trigger t k).proxyTarget = s.proxyTarget := (triggerFold_frame _ _).2.2.2.2.2.1

theorem trigger_parentMap (s : RSys) (t : Nat) (k : Key) :
    (s.trigger t k).parentMap = s.parentMap := (triggerFold_frame _ _).2.2.2.2.2.2.1

theorem trigger_arrSet (s : RSys) (t : Nat) (k : Key) :
    (s.trigger t k).arrSet = s.arrSet := (triggerFold_frame _ _).2.2.2.2.2.2.2.1

theorem trigger_nextId (s : RSys) (t : Nat) (k : Key) :
    (s.trigger t k).nextId = s.nextId := (triggerFold_frame _ _).2.2.2.2.2.2.2.2.1

/-- A `setTrap` is the heap update followed by queue-only triggers, so any
projection untouched by `trigger` and by the heap update is preserved. -/
theorem setTrap_proj {γ : Type} (g : RSys → γ)
    (htr : ∀ (x : RSys) (a : Nat) (b : Key), g (x.trigger a b) = g x)
    (s : RSys) (t : Nat) (k : Key) (v : Val)
    (hup : g { s with heap := aupdate s.heap (t, k) v } = g s) :
    g (s.setTrap t k v) = g s := by
  simp only [RSys.setTrap]
  split
  · rcases h : alookup s.parentMap t with _ | ⟨p, pk⟩ <;>
      simp only [h] <;> split <;> simp only [htr, hup]
  · exact hup

theorem setTrap_heap (s : RSys) (t : Nat) (k : Key) (v : Val) :
    (s.setTrap t k v).heap = aupdate s.heap (t, k) v := by
  simp only [setTrap]
  split
  · rcases h : alookup s.parentMap t with _ | ⟨p, pk⟩ <;> simp only [h] <;> split <;>
      simp only [trigger_heap]
  · rfl

theorem setTrap_proxyTarget (s : RSys) (t : Nat) (k : Key) (v : Val) :
    (s.setTrap t k v).proxyTarget = s.proxyTarget :=
  setTrap_proj (·.proxyTarget) (fun x a b => trigger_proxyTarget x a b) s t k v rfl

theorem setTrap_reactiveMap (s : RSys) (t : Nat) (k : Key) (v : Val) :
    (s.setTrap t k v).reactiveMap = s.reactiveMap :=
  setTrap_proj (·.reactiveMap) (fun x a b => trigger_reactiveMap x a b) s t k v rfl

theorem setTrap_parentMap (s : RSys) (t : Nat) (k : Key) (v : Val) :
    (s.setTrap t k v).parentMap = s.parentMap :=
  setTrap_proj (·.parentMap) (fun x a b => trigger_parentMap x a b) s t k v rfl

theorem setTrap_arrSet (s : RSys) (t : Nat) (k : Key) (v : Val) :
    (s.setTrap t k v).arrSet = s.arrSet :=
  setTrap_proj (·.arrSet) (fun x a b => trigger_arrSet x a b) s t k v rfl

theorem setTrap_nextId (s : RSys) (t : Nat) (k : Key) (v : Val) :
    (s.setTrap t k v).nextId = s.nextId :=
  setTrap_proj (·.nextId) (fun x a b => trigger_nextId x a b) s t k v rfl

theorem track_frame (s : RSys) (a : Nat) (b : Key) :
    (s.track a b).heap = s.heap ∧ (s.track a b).proxyTarget = s.proxyTarget ∧
    (s.track a b).reactiveMap = s.reactiveMap ∧ (s.track a b).nextId = s.nextId ∧
    (s.track a b).parentMap = s.parentMap ∧ (s.track a b).arrSet = s.arrSet ∧
    (s.track a b).currentEffect = s.currentEffect := by
  rcases h : s.currentEffect with _ | e <;> simp [track, h]

/-- `getTrap` is tracking bookkeeping (the `Y` below) followed by either a
plain read or a recursive `reactive` wrap of an object value. -/
theorem getTrap_spec (X : RSys) (t : Nat) (k : Key) :
    ∃ Y : RSys, Y.heap = X.heap ∧ Y.proxyTarget = X.proxyTarget ∧
      Y.reactiveMap = X.reactiveMap ∧ Y.nextId = X.nextId ∧
      Y.parentMap = X.parentMap ∧ Y.arrSet = X.arrSet ∧
      Y.currentEffect = X.currentEffect ∧
      X.getTrap t k = (match X.heapGet t k with
        | .obj o => (Val.obj (Y.reactiveF o (some (t, k))).1, (Y.reactiveF o (some (t, k))).2)
        | v => (v, Y)) := by
  refine ⟨if t ∈ (X.track t k).arrSet then (X.track t k).track t Key.arrayMagic
      else X.track t k, ?_, ?_, ?_, ?_, ?_, ?_, ?_, ?_⟩
  case _ => split <;> simp [(track_frame _ _ _).1]
  case _ => split <;> simp [(track_frame _ _ _).2.1]
  case _ => split <;> simp [(track_frame _ _ _).2.2.1]
  case _ => split <;> simp [(track_frame _ _ _).2.2.2.1]
  case _ => split <;> simp [(track_frame _ _ _).2.2.2.2.1]
  case _ => split <;> simp [(track_frame _ _ _).2.2.2.2.2.1]
  case _ => split <;> simp [(track_frame _ _ _).2.2.2.2.2.2]
  case _ =>
    have hh : (if t ∈ (X.track t k).arrSet then (X.track t k).track t Key.arrayMagic
        else X.track t k).heapGet t k = X.heapGet t k := by
      unfold heapGet
      split <;> simp [(track_frame _ _ _).1]
    simp only [getTrap, hh]

theorem setTrap_currentEffect (s : RSys) (t : Nat) (k : Key) (v : Val) :
    (s.setTrap t k v).currentEffect = s.currentEffect :=
  setTrap_proj (·.currentEffect) (fun x a b => trigger_currentEffect x a b) s t k v rfl

theorem setTrap_log (s : RSys) (t : Nat) (k : Key) (v : Val) :
    (s.setTrap t k v).log = s.log :=
  setTrap_proj (·.log) (fun x a b => trigger_log x a b) s t k v rfl

theorem setTrap_targetMap (s : RSys) (t : Nat) (k : Key) (v : Val) :
    (s.setTrap t k v).targetMap = s.targetMap :=
  setTrap_proj (·.targetMap) (fun x a b => trigger_targetMap x a b) s t k v rfl

/-- The queue after one `setTrap` is exactly the old queue extended (as a
set, in insertion order) with the effects the write notifies. -/
theorem setTrap_queue (s : RSys) (t : Nat) (k : Key) (v : Val)
    (h : s.currentEffect = none) :
    (s.setTrap t k v).updateQueue = dedupAdd s.updateQueue (s.writeNotifies t k v) := by
  simp only [RSys.setTrap, RSys.writeNotifies]
  split
  · set s₁ : RSys := { s with heap := aupdate s.heap (t, k) v } with hs₁
    have h₁ : s₁.currentEffect = none := h
    have hq₁ : (s₁.trigger t k).updateQueue = dedupAdd s.updateQueue (s.depsOf t k) := by
      rw [trigger_eq_triggerFold, triggerFold_queue _ _ h₁]; rfl
    have hce₂ : (s₁.trigger t k).currentEffect = none := by
      rw [trigger_currentEffect]; exact h₁
    have hq₂ : ∀ (a : Nat) (b : Key),
        ((s₁.trigger t k).trigger a b).updateQueue
          = dedupAdd s.updateQueue (s.depsOf t k ++ s.depsOf a b) := by
      intro a b
      rw [trigger_eq_triggerFold, triggerFold_queue _ _ hce₂, trigger_depsOf, hq₁,
          ← dedupAdd_append]
      rfl
    have hce₃ : ∀ (a : Nat) (b : Key),
        ((s₁.trigger t k).trigger a b).currentEffect = none := by
      intro a b; rw [trigger_currentEffect]; exact hce₂
    have hq₃ : ∀ (a : Nat) (b : Key) (p : Nat) (pk : Key),
        (((s₁.trigger t k).trigger a b).trigger p pk).updateQueue
          = dedupAdd s.updateQueue (s.depsOf t k ++ s.depsOf a b ++ s.depsOf p pk) := by
      intro a b p pk
      rw [trigger_eq_triggerFold, triggerFold_queue _ _ (hce₃ a b), trigger_depsOf,
          trigger_depsOf, hq₂, ← dedupAdd_append]
      rfl
    rcases hp : alookup s.parentMap t with _ | ⟨p, pk⟩ <;> simp only [hp]
    · by_cases harr : t ∈ s.arrSet ∧ k = Key.length
      · rw [if_pos harr, if_pos harr, hq₂]
        simp
      · rw [if_neg harr, if_neg harr, hq₁]
        simp
    · by_cases harr : t ∈ s.arrSet ∧ k = Key.length
      · rw [if_pos harr, if_pos harr, hq₃]
      · rw [if_neg harr, if_neg harr, trigger_eq_triggerFold,
            triggerFold_queue _ _ hce₂, trigger_depsOf, hq₁, ← dedupAdd_append]
        simp only [List.append_nil]
        rfl
  · simp [dedupAdd]

theorem applyWrites_currentEffect (s : RSys) (ws : List (Nat × Key × Val)) :
    (s.applyWrites ws).currentEffect = s.currentEffect := by
  induction ws generalizing s with
  | nil => rfl
  | cons w rest ih =>
      rcases w with ⟨t, k, v⟩
      rw [applyWrites, ih, setTrap_currentEffect]

theorem applyWrites_log (s : RSys) (ws : List (Nat × Key × Val)) :
    (s.applyWrites ws).log = s.log := by
  induction ws generalizing s with
  | nil => rfl
  | cons w rest ih =>
      rcases w with ⟨t, k, v⟩
      rw [applyWrites, ih, setTrap_log]

/-- Queue contents after a synchronous turn of writes: the deduplicated,
insertion-ordered list of all notified effects. -/
theorem applyWrites_queue (s : RSys) (ws : List (Nat × Key × Val))
    (h : s.currentEffect = none) :
    (s.applyWrites ws).updateQueue = dedupAdd s.updateQueue (s.touchedEffects ws) := by
  induction ws generalizing s with
  | nil => rfl
  | cons w rest ih =>
      rcases w with ⟨t, k, v⟩
      rw [applyWrites, touchedEffects, dedupAdd_append, ← setTrap_queue s t k v h]
      exact ih _ (by rw [setTrap_currentEffect]; exact h)

theorem track_log (s : RSys) (a : Nat) (b : Key) : (s.track a b).log = s.log := by
  rcases h : s.currentEffect with _ | e <;> simp [track, h]

theorem reactiveF_log (s : RSys) (o : Nat) (par : Option (Nat × Key)) :
    ((s.reactiveF o par).2).log = s.log := by
  simp only [reactiveF]
  split
  · rfl
  · rcases hm : alookup s.reactiveMap o with _ | p <;> simp only [hm] <;>
      rcases par with _ | pk <;> rfl

theorem getTrap_log (s : RSys) (t : Nat) (k : Key) : ((s.getTrap t k).2).log = s.log := by
  have hx : (if t ∈ (s.track t k).arrSet then (s.track t k).track t Key.arrayMagic
      else s.track t k).log = s.log := by
    split
    · rw [track_log, track_log]
    · rw [track_log]
  simp only [getTrap]
  split
  · rename_i o heq
    show (((if t ∈ (s.track t k).arrSet then (s.track t k).track t Key.arrayMagic
        else s.track t k).reactiveF o (some (t, k))).2).log = s.log
    rw [reactiveF_log]
    exact hx
  · exact hx

theorem runInstr_log (s : RSys) (i : Instr) : (s.runInstr i).log = s.log := by
  cases i with
  | read t k => exact getTrap_log s t k
  | readIf ft fk t k =>
      simp only [runInstr]
      rcases hg : s.getTrap ft fk with ⟨v, s₁⟩
      have h₁ : s₁.log = s.log := by
        have := getTrap_log s ft fk; rwa [hg] at this
      split
      · have := getTrap_log s₁ t k; rw [this, h₁]
      · exact h₁
  | write t k v => exact setTrap_log s t k v

theorem cleanupEffect_log (s : RSys) (e : Nat) : (s.cleanupEffect e).log = s.log := by
  simp only [cleanupEffect]
  exact foldl_proj_eq
    (fun acc tk =>
      { acc with targetMap := aupdate acc.targetMap tk ((acc.depsOf tk.1 tk.2).filter (· ≠ e)) })
    (·.log) (fun _ _ => rfl) _ s

theorem runEffect_log (s : RSys) (e : Nat) : (s.runEffect e).log = s.log ++ [e] := by
  simp only [runEffect]
  rw [foldl_proj_eq runInstr (·.log) (fun x i => runInstr_log x i)]
  simp [cleanupEffect_log]

theorem foldRunEffect_log (jobs : List Nat) (x : RSys) :
    (jobs.foldl runEffect x).log = x.log ++ jobs := by
  induction jobs generalizing x with
  | nil => simp
  | cons j rest ih => rw [List.foldl_cons, ih, runEffect_log, List.append_assoc]; rfl

/-- The flush executes exactly the snapshotted pending set, in insertion
order, appending those ids to the execution log. -/
theorem runFlush_log (s : RSys) : (s.runFlush).log = s.log ++ s.updateQueue := by
  simp only [runFlush]
  rw [foldRunEffect_log]

theorem foldl_pres {α : Type} (f : RSys → α → RSys) (P : RSys → Prop)
    (hf : ∀ x a, P x → P (f x a)) :
    ∀ (l : List α) (s : RSys), P s → P (l.foldl f s) := by
  intro l
  induction l with
  | nil => intro s hs; exact hs
  | cons a l ih => intro s hs; exact ih _ (hf s a hs)

theorem track_qp (s : RSys) (a : Nat) (b : Key) :
    (s.track a b).qp = s.qp := by
  rcases h : s.currentEffect with _ | e <;> simp [track, qp, h]

theorem reactiveF_qp (s : RSys) (o : Nat) (par : Option (Nat × Key)) :
    ((s.reactiveF o par).2).qp = s.qp := by
  simp only [reactiveF]
  split
  · rfl
  · rcases hm : alookup s.reactiveMap o with _ | p <;> simp only [hm] <;>
      rcases par with _ | pk <;> rfl

theorem getTrap_qp (s : RSys) (t : Nat) (k : Key) : ((s.getTrap t k).2).qp = s.qp := by
  have hx : (if t ∈ (s.track t k).arrSet then (s.track t k).track t Key.arrayMagic
      else s.track t k).qp = s.qp := by
    split
    · rw [track_qp, track_qp]
    · rw [track_qp]
  simp only [getTrap]
  split
  · rename_i o heq
    show (((if t ∈ (s.track t k).arrSet then (s.track t k).track t Key.arrayMagic
        else s.track t k).reactiveF o (some (t, k))).2).qp = s.qp
    rw [reactiveF_qp]
    exact hx
  · exact hx

/-- The pending-queue invariant: a nonempty pending set always has a flush
scheduled, and no computation appears twice in one cycle. -/
def QInv (s : RSys) : Prop :=
  (s.updateQueue ≠ [] → s.isFlushPending = true) ∧ s.updateQueue.Nodup

theorem qinv_of_qp {s x : RSys} (h : x.qp = s.qp) (hs : QInv s) : QInv x := by
  rcases hs with ⟨h₁, h₂⟩
  have hq : x.updateQueue = s.updateQueue := congrArg Prod.fst h
  have hp : x.isFlushPending = s.isFlushPending := congrArg Prod.snd h
  exact ⟨fun hne => by rw [hp]; exact h₁ (hq ▸ hne), hq ▸ h₂⟩

theorem qinv_queueJob (s : RSys) (j : Nat) (h : QInv s) : QInv (s.queueJob j) := by
  rcases h with ⟨_, h₂⟩
  constructor
  · intro _; rfl
  · simp only [queueJob]
    split
    · exact h₂
    · rename_i hj
      simpa [List.nodup_append] using ⟨h₂, hj⟩

theorem qinv_trigger (s : RSys) (t : Nat) (k : Key) (h : QInv s) : QInv (s.trigger t k) := by
  rw [trigger_eq_triggerFold]
  refine foldl_pres _ QInv ?_ _ s h
  intro x a hx
  split
  · exact hx
  · exact qinv_queueJob x a hx

theorem qinv_setTrap (s : RSys) (t : Nat) (k : Key) (v : Val) (h : QInv s) :
    QInv (s.setTrap t k v) := by
  have h₁ : QInv ({ s with heap := aupdate s.heap (t, k) v } : RSys) :=
    qinv_of_qp rfl h
  simp only [setTrap]
  split
  · rcases hp : alookup s.parentMap t with _ | ⟨p, pk⟩ <;> simp only [hp]
    · split
      · exact qinv_trigger _ _ _ (qinv_trigger _ _ _ h₁)
      · exact qinv_trigger _ _ _ h₁
    · split
      · exact qinv_trigger _ _ _ (qinv_trigger _ _ _ (qinv_trigger _ _ _ h₁))
      · exact qinv_trigger _ _ _ (qinv_trigger _ _ _ h₁)
  · exact h₁

theorem qinv_runInstr (s : RSys) (i : Instr) (h : QInv s) : QInv (s.runInstr i) := by
  cases i with
  | read t k => exact qinv_of_qp (getTrap_qp s t k) h
  | readIf ft fk t k =>
      simp only [runInstr]
      rcases hg : s.getTrap ft fk with ⟨v, s₁⟩
      have h₁ : QInv s₁ := by
        have := getTrap_qp s ft fk
        rw [hg] at this
        exact qinv_of_qp this h
      split
      · exact qinv_of_qp (getTrap_qp s₁ t k) h₁
      · exact h₁
  | write t k v => exact qinv_setTrap s t k v h

theorem qinv_cleanupEffect (s : RSys) (e : Nat) (h : QInv s) : QInv (s.cleanupEffect e) := by
  simp only [cleanupEffect]
  exact qinv_of_qp rfl
    (foldl_pres
      (fun acc tk =>
        { acc with targetMap := aupdate acc.targetMap tk ((acc.depsOf tk.1 tk.2).filter (· ≠ e)) })
      QInv (fun x a hx => qinv_of_qp rfl hx) _ s h)

theorem qinv_runEffect (s : RSys) (e : Nat) (h : QInv s) : QInv (s.runEffect e) := by
  simp only [runEffect]
  exact qinv_of_qp rfl
    (foldl_pres runInstr QInv qinv_runInstr _ _ (qinv_of_qp rfl (qinv_cleanupEffect s e h)))

end RSys

/-- `C8` (flush re-entrancy): a flush executes exactly the snapshotted
pending set, once each in insertion order; computations scheduled while the
flush runs never execute inside that same flush — they land in the new
pending set, which (when nonempty) has a fresh flush scheduled and stays
duplicate-free. -/
theorem flush_reentrancy (s : RSys) (h : s.updateQueue.Nodup) :
    (s.runFlush).log = s.log ++ s.updateQueue
    ∧ (∀ j ∈ s.updateQueue, ((s.runFlush).log.drop s.log.length).count j = 1)
    ∧ ((s.runFlush).updateQueue ≠ [] → (s.runFlush).isFlushPending = true)
    ∧ (s.runFlush).updateQueue.Nodup := by
  have hinv : RSys.QInv (s.runFlush) := by
    simp only [RSys.runFlush]
    exact RSys.foldl_pres RSys.runEffect RSys.QInv RSys.qinv_runEffect _ _
      ⟨fun hne => absurd rfl hne, List.nodup_nil⟩
  refine ⟨RSys.runFlush_log s, ?_, hinv.1, hinv.2⟩
  intro j hj
  rw [RSys.runFlush_log, List.drop_left]
  exact List.count_eq_one_of_mem h hj

/-- Witness for `flush_reentrancy`: flushing `[5]`, whose body's write
schedules dependent `6`, leaves `6` for a new cycle with a flush pending. -/
theorem flush_reentrancy_witness :
    sampleC8.updateQueue.Nodup ∧
    (sampleC8.runFlush).log = sampleC8.log ++ sampleC8.updateQueue ∧
    (sampleC8.runFlush).log = [5] ∧
    (sampleC8.runFlush).updateQueue = [6] ∧
    (sampleC8.runFlush).isFlushPending = true :=
  ⟨by decide, (flush_reentrancy sampleC8 (by decide)).1, by decide, by decide, by decide⟩

namespace RSys

theorem reactiveF_proxy (Y : RSys) (o : Nat) (par : Option (Nat × Key))
    (h : (alookup Y.proxyTarget o).isSome) : Y.reactiveF o par = (o, Y) := by
  simp [reactiveF, h]

theorem reactiveF_hit_some (Y : RSys) (o q t : Nat) (k : Key)
    (hpt : alookup Y.proxyTarget o = none) (hrm : alookup Y.reactiveMap o = some q) :
    Y.reactiveF o (some (t, k))
      = (q, { Y with parentMap := aupdate Y.parentMap o (t, k) }) := by
  simp [reactiveF, hpt, hrm]

theorem reactiveF_hit_none (Y : RSys) (o q : Nat)
    (hpt : alookup Y.proxyTarget o = none) (hrm : alookup Y.reactiveMap o = some q) :
    Y.reactiveF o none = (q, Y) := by
  simp [reactiveF, hpt, hrm]

theorem reactiveF_fresh_some (Y : RSys) (o t : Nat) (k : Key)
    (hpt : alookup Y.proxyTarget o = none) (hrm : alookup Y.reactiveMap o = none) :
    Y.reactiveF o (some (t, k))
      = (Y.nextId,
         { Y with parentMap := aupdate Y.parentMap o (t, k)
                  proxyTarget := aupdate Y.proxyTarget Y.nextId o
                  reactiveMap := aupdate Y.reactiveMap o Y.nextId
                  nextId := Y.nextId + 1 }) := by
  simp [reactiveF, hpt, hrm]

theorem reactiveF_fresh_none (Y : RSys) (o : Nat)
    (hpt : alookup Y.proxyTarget o = none) (hrm : alookup Y.reactiveMap o = none) :
    Y.reactiveF o none
      = (Y.nextId,
         { Y with proxyTarget := aupdate Y.proxyTarget Y.nextId o
                  reactiveMap := aupdate Y.reactiveMap o Y.nextId
                  nextId := Y.nextId + 1 }) := by
  simp [reactiveF, hpt, hrm]

end RSys

/-- `C4` counterexample: with raw object `1` wrapped as proxy `10`, writing
the raw object reference `2` to a property through the proxy and reading
the same property back yields the freshly allocated proxy `11` of `2`, not
the written reference `2` itself — so the literal universal round-trip
("reading p through the wrapper yields v") fails for object-valued `v`. -/
theorem reactive_roundtrip_counterexample :
    ((sampleC4.setThrough 10 (.named 0) (.obj 2)).getThrough 10 (.named 0)).1 ≠ Val.obj 2
    ∧ ((sampleC4.setThrough 10 (.named 0) (.obj 2)).getThrough 10 (.named 0)).1
        = Val.obj 11 := by
  decide

/-- `C4` (amended): writing a primitive through the wrapper and reading it
back yields the written value; writing an object reference and reading it
back yields that object's unique registered proxy — stably, the same proxy
on every read; and wrapping is idempotent: `reactive` of a proxy returns
the proxy itself, and wrapping the same raw object twice returns
reference-equal (identical) proxies. -/
theorem reactive_roundtrip_single_proxy :
    (∀ (s : RSys) (p t : Nat) (k : Key) (v : Val),
        alookup s.proxyTarget p = some t → v.isObjRef = false →
        ((s.setThrough p k v).getThrough p k).1 = v) ∧
    (∀ (s : RSys) (p t o : Nat) (k : Key),
        RSys.WFreactive s →
        alookup s.proxyTarget p = some t →
        alookup s.proxyTarget o = none → o < s.nextId →
        ∃ q, ((s.setThrough p k (.obj o)).getThrough p k).1 = .obj q
          ∧ alookup (((s.setThrough p k (.obj o)).getThrough p k).2).proxyTarget q = some o
          ∧ ((((s.setThrough p k (.obj o)).getThrough p k).2).getThrough p k).1 = .obj q) ∧
    (∀ (s : RSys) (r : Nat),
        RSys.WFreactive s → alookup s.proxyTarget r = none → r < s.nextId →
        ((s.reactiveF r none).2.reactiveF ((s.reactiveF r none).1) none).1
            = (s.reactiveF r none).1
        ∧ ((s.reactiveF r none).2.reactiveF r none).1 = (s.reactiveF r none).1) := by
  refine ⟨?_, ?_, ?_⟩
  · intro s p t k v hp hv
    simp only [RSys.setThrough, hp]
    have hpt : alookup (s.setTrap t k v).proxyTarget p = some t := by
      rw [RSys.setTrap_proxyTarget]; exact hp
    simp only [RSys.getThrough, hpt]
    obtain ⟨Y, hY1, hY2, hY3, hY4, hY5, hY6, hY7, heq⟩ :=
      RSys.getTrap_spec (s.setTrap t k v) t k
    rw [heq]
    have hget : (s.setTrap t k v).heapGet t k = v := by
      unfold RSys.heapGet
      rw [RSys.setTrap_heap, alookup_aupdate_self]
      rfl
    rw [hget]
    cases v <;> simp_all [Val.isObjRef]
  · intro s p t o k hwf hp ho holt
    simp only [RSys.setThrough, hp]
    set W : RSys := s.setTrap t k (.obj o) with hW
    have hpt : alookup W.proxyTarget p = some t := by
      rw [hW, RSys.setTrap_proxyTarget]; exact hp
    obtain ⟨Y, hY1, hY2, hY3, hY4, hY5, hY6, hY7, heq⟩ := RSys.getTrap_spec W t k
    have hWpt : W.proxyTarget = s.proxyTarget := RSys.setTrap_proxyTarget s t k _
    have hWrm : W.reactiveMap = s.reactiveMap := RSys.setTrap_reactiveMap s t k _
    have hWni : W.nextId = s.nextId := RSys.setTrap_nextId s t k _
    have hget : W.heapGet t k = .obj o := by
      unfold RSys.heapGet
      rw [hW, RSys.setTrap_heap, alookup_aupdate_self]
      rfl
    have hWgt : W.getTrap t k
        = (Val.obj (Y.reactiveF o (some (t, k))).1, (Y.reactiveF o (some (t, k))).2) := by
      rw [heq, hget]
    have hthrough : W.getThrough p k = W.getTrap t k := by
      simp only [RSys.getThrough, hpt]
    have hYo : alookup Y.proxyTarget o = none := by rw [hY2, hWpt]; exact ho
    have hplt : p < s.nextId := hwf.1 _ (alookup_mem (hWpt ▸ hpt))
    rcases hrm : alookup Y.reactiveMap o with _ | q
    · -- o not wrapped yet: a fresh proxy `Y.nextId` is allocated
      rw [RSys.reactiveF_fresh_some Y o t k hYo hrm] at hWgt
      refine ⟨Y.nextId, ?_, ?_, ?_⟩
      · rw [hthrough, hWgt]
      · rw [hthrough, hWgt]
        exact alookup_aupdate_self _ _ _
      · rw [hthrough, hWgt]
        set Z : RSys :=
          { Y with parentMap := aupdate Y.parentMap o (t, k)
                   proxyTarget := aupdate Y.proxyTarget Y.nextId o
                   reactiveMap := aupdate Y.reactiveMap o Y.nextId
                   nextId := Y.nextId + 1 } with hZ
        have hqp : Y.nextId ≠ p := by
          rw [hY4, hWni]; omega
        have hZp : alookup Z.proxyTarget p = some t := by
          show alookup (aupdate Y.proxyTarget Y.nextId o) p = some t
          rw [alookup_aupdate_ne _ _ _ _ hqp, hY2]
          exact hpt
        simp only [RSys.getThrough, hZp]
        obtain ⟨Y', hY'1, hY'2, hY'3, hY'4, hY'5, hY'6, hY'7, heq'⟩ :=
          RSys.getTrap_spec Z t k
        have hZheap : Z.heap = W.heap := hY1
        have hget' : Z.heapGet t k = .obj o := by
          unfold RSys.heapGet at hget ⊢
          rw [hZheap]
          exact hget
        have hY'o : alookup Y'.proxyTarget o = none := by
          rw [hY'2]
          show alookup (aupdate Y.proxyTarget Y.nextId o) o = none
          have hno : Y.nextId ≠ o := by rw [hY4, hWni]; omega
          rw [alookup_aupdate_ne _ _ _ _ hno, hY2, hWpt]
          exact ho
        have hY'rm : alookup Y'.reactiveMap o = some Y.nextId := by
          rw [hY'3]
          exact alookup_aupdate_self _ _ _
        rw [heq', hget']
        show Val.obj (Y'.reactiveF o (some (t, k))).1 = Val.obj Y.nextId
        rw [RSys.reactiveF_hit_some Y' o Y.nextId t k hY'o hY'rm]
    · -- o already wrapped as q: the registered proxy is returned
      rw [RSys.reactiveF_hit_some Y o q t k hYo hrm] at hWgt
      have hmem : (o, q) ∈ s.reactiveMap :=
        alookup_mem (by rw [← hWrm, ← hY3]; exact hrm)
      have hq : alookup s.proxyTarget q = some o := (hwf.2 _ hmem).2
      refine ⟨q, ?_, ?_, ?_⟩
      · rw [hthrough, hWgt]
      · rw [hthrough, hWgt]
        show alookup Y.proxyTarget q = some o
        rw [hY2, hWpt]
        exact hq
      · rw [hthrough, hWgt]
        set Z : RSys := { Y with parentMap := aupdate Y.parentMap o (t, k) } with hZ
        have hZp : alookup Z.proxyTarget p = some t := by
          show alookup Y.proxyTarget p = some t
          rw [hY2]
          exact hpt
        simp only [RSys.getThrough, hZp]
        obtain ⟨Y', hY'1, hY'2, hY'3, hY'4, hY'5, hY'6, hY'7, heq'⟩ :=
          RSys.getTrap_spec Z t k
        have hZheap : Z.heap = W.heap := hY1
        have hget' : Z.heapGet t k = .obj o := by
          unfold RSys.heapGet at hget ⊢
          rw [hZheap]
          exact hget
        have hY'o : alookup Y'.proxyTarget o = none := by
          rw [hY'2]
          show alookup Y.proxyTarget o = none
          exact hYo
        have hY'rm : alookup Y'.reactiveMap o = some q := by
          rw [hY'3]
          show alookup Y.reactiveMap o = some q
          exact hrm
        rw [heq', hget']
        show Val.obj (Y'.reactiveF o (some (t, k))).1 = Val.obj q
        rw [RSys.reactiveF_hit_some Y' o q t k hY'o hY'rm]
  · intro s r hwf hr hrlt
    rcases hrm : alookup s.reactiveMap r with _ | p
    · rw [RSys.reactiveF_fresh_none s r hr hrm]
      constructor
      · refine congrArg Prod.fst (RSys.reactiveF_proxy _ _ _ ?_)
        show (alookup (aupdate s.proxyTarget s.nextId r) s.nextId).isSome
        rw [alookup_aupdate_self]
        rfl
      · have hne : s.nextId ≠ r := by omega
        have h1 : alookup (aupdate s.proxyTarget s.nextId r) r = none := by
          rw [alookup_aupdate_ne _ _ _ _ hne]
          exact hr
        have h2 : alookup (aupdate s.reactiveMap r s.nextId) r = some s.nextId :=
          alookup_aupdate_self _ _ _
        rw [RSys.reactiveF_hit_none _ r s.nextId h1 h2]
    · rw [RSys.reactiveF_hit_none s r p hr hrm]
      have hmem : (r, p) ∈ s.reactiveMap := alookup_mem hrm
      have hq : alookup s.proxyTarget p = some r := (hwf.2 _ hmem).2
      constructor
      · exact congrArg Prod.fst (RSys.reactiveF_proxy s p none (by rw [hq]; rfl))
      · rw [RSys.reactiveF_hit_none s r p hr hrm]

theorem pruneMap_alookup_not_mem (e : Nat) (l : List (Nat × Key)) :
    ∀ (m : List ((Nat × Key) × List Nat)) (x : Nat × Key), x ∉ l →
      alookup (pruneMap e l m) x = alookup m x := by
  induction l with
  | nil => intro m x _; rfl
  | cons a l ih =>
      intro m x hx
      rw [pruneMap, List.foldl_cons]
      rw [show List.foldl _ _ l = pruneMap e l (aupdate m a (((alookup m a).getD []).filter (· ≠ e)))
            from rfl]
      rw [ih _ x (fun h => hx (List.mem_cons_of_mem a h))]
      exact alookup_aupdate_ne _ _ _ _ (fun h => hx (h ▸ List.mem_cons_self a l))

theorem pruneMap_detaches (e : Nat) (l : List (Nat × Key)) :
    ∀ (m : List ((Nat × Key) × List Nat)) (tk : Nat × Key), tk ∈ l →
      e ∉ (alookup (pruneMap e l m) tk).getD [] := by
  induction l with
  | nil => intro m tk h; cases h
  | cons a l ih =>
      intro m tk htk
      rw [pruneMap, List.foldl_cons]
      rw [show List.foldl _ _ l = pruneMap e l (aupdate m a (((alookup m a).getD []).filter (· ≠ e)))
            from rfl]
      by_cases hl : tk ∈ l
      · exact ih _ _ hl
      · have hta : tk = a := by
          rcases List.mem_cons.mp htk with h | h
          · exact h
          · exact absurd h hl
        subst hta
        intro hmem
        rw [pruneMap_alookup_not_mem e l _ tk hl, alookup_aupdate_self] at hmem
        simp [List.mem_filter] at hmem

/-- The `cleanupEffect` fold is `pruneMap` on the `targetMap` component. -/
theorem cleanupEffect_targetMap (s : RSys) (e : Nat) :
    (s.cleanupEffect e).targetMap = pruneMap e (s.effectDepsOf e) s.targetMap := by
  simp only [RSys.cleanupEffect, pruneMap]
  generalize s.effectDepsOf e = l
  induction l generalizing s with
  | nil => rfl
  | cons a l ih =>
      rw [List.foldl_cons, List.foldl_cons]
      exact ih _

/-- `C5` (dependency pruning): `cleanupEffect` — run before every
execution of a computation, including the first — detaches the computation
from every dependency record listed for it; consequently, in the
conditional-read scenario, once the flag flips to falsy and the effect
re-runs, a write to the conditionally-read key alone queues nothing, while
a write to the flag still queues the effect. -/
theorem dependency_pruning :
    (∀ (s : RSys) (e : Nat), ∀ tk ∈ s.effectDepsOf e,
        e ∉ (s.cleanupEffect e).depsOf tk.1 tk.2) ∧
    (∀ (o : Nat) (kf ka : Key) (eid : Nat), kf ≠ ka →
        ((((condState o kf ka eid).runEffect eid).setTrap o kf (.prim 0)).updateQueue = [eid]
        ∧ ((condStateAfterFlush o kf ka eid).setTrap o ka (.prim 5)).updateQueue = []
        ∧ ((condStateAfterFlush o kf ka eid).setTrap o kf (.prim 2)).updateQueue = [eid])) := by
  constructor
  · intro s e tk htk
    unfold RSys.depsOf
    rw [cleanupEffect_targetMap]
    exact pruneMap_detaches e _ s.targetMap tk htk
  · intro o kf ka eid hkk
    have hkk' : ka ≠ kf := Ne.symm hkk
    refine ⟨?_, ?_, ?_⟩ <;>
      simp [condStateAfterFlush, condState, RSys.runEffect, RSys.cleanupEffect,
            RSys.effectDepsOf, RSys.runInstr, RSys.getTrap, RSys.track, RSys.heapGet,
            RSys.depsOf, RSys.setTrap, RSys.trigger, RSys.queueJob, RSys.runFlush,
            RSys.reactiveF, Val.truthy, Val.isObjRef, alookup, aupdate, hkk, hkk']

/-- Witness for `dependency_pruning`: detaching effect `3` from its
recorded dependency, and the concrete flag/value scenario with
`o = 0`, `flag = x`, `A = y`, `eid = 3`. -/
theorem dependency_pruning_witness :
    (3 ∉ (sampleC5.cleanupEffect 3).depsOf 0 (.named 0)) ∧
    ((((condState 0 (.named 0) (.named 1) 3).runEffect 3).setTrap 0 (.named 0)
        (.prim 0)).updateQueue = [3]
     ∧ ((condStateAfterFlush 0 (.named 0) (.named 1) 3).setTrap 0 (.named 1)
        (.prim 5)).updateQueue = []
     ∧ ((condStateAfterFlush 0 (.named 0) (.named 1) 3).setTrap 0 (.named 0)
        (.prim 2)).updateQueue = [3]) :=
  ⟨dependency_pruning.1 sampleC5 3 (0, .named 0) (by decide),
   dependency_pruning.2 0 (.named 0) (.named 1) 3 (by decide)⟩

/-- `C9` (parent bubbling): reading an object-valued property records a
parent link for the raw child object, and any change-notifying write
through the child then queues every computation depending on the parent's
`(target, key)` record, in addition to the dependents of the written key
itself. -/
theorem parent_bubbling :
    (∀ (s : RSys) (p : Nat) (kp : Key) (t : Nat),
        s.heapGet p kp = .obj t → alookup s.proxyTarget t = none →
        alookup (((s.getTrap p kp).2).parentMap) t = some (p, kp)) ∧
    (∀ (s : RSys) (t : Nat) (k : Key) (v : Val) (pp : Nat) (pk : Key),
        alookup s.parentMap t = some (pp, pk) →
        s.currentEffect = none →
        (s.heapGet t k ≠ v ∨ v.isObjRef = true) →
        (∀ e ∈ s.depsOf pp pk, e ∈ (s.setTrap t k v).updateQueue)
        ∧ (∀ e ∈ s.depsOf t k, e ∈ (s.setTrap t k v).updateQueue)) := by
  constructor
  · intro s p kp t hv hpt
    obtain ⟨Y, hY1, hY2, hY3, hY4, hY5, hY6, hY7, heq⟩ := RSys.getTrap_spec s p kp
    have hYt : alookup Y.proxyTarget t = none := by rw [hY2]; exact hpt
    have h2 : (s.getTrap p kp).2 = (Y.reactiveF t (some (p, kp))).2 := by
      rw [heq, hv]
    rw [h2]
    rcases hrm : alookup Y.reactiveMap t with _ | q
    · rw [RSys.reactiveF_fresh_some Y t p kp hYt hrm]
      exact alookup_aupdate_self _ _ _
    · rw [RSys.reactiveF_hit_some Y t q p kp hYt hrm]
      exact alookup_aupdate_self _ _ _
  · intro s t k v pp pk hpm hce hcond
    simp only [RSys.setTrap]
    rw [if_pos hcond]
    simp only [hpm]
    set s₁ : RSys := { s with heap := aupdate s.heap (t, k) v } with hs₁
    have h₁ : s₁.currentEffect = none := hce
    have hce₂ : (s₁.trigger t k).currentEffect = none := by
      rw [RSys.trigger_currentEffect]; exact h₁
    constructor
    · intro e he
      split
      · refine RSys.triggerFold_mem _ _ e ?_ ?_
        · rw [RSys.trigger_currentEffect]; exact hce₂
        · rw [RSys.trigger_depsOf, RSys.trigger_depsOf]
          exact he
      · refine RSys.triggerFold_mem _ _ e hce₂ ?_
        rw [RSys.trigger_depsOf]
        exact he
    · intro e he
      have hfirst : e ∈ (s₁.trigger t k).updateQueue := by
        rw [RSys.trigger_eq_triggerFold]
        exact RSys.triggerFold_mem _ _ e h₁ he
      split
      · exact RSys.trigger_queue_mono _ _ _ e (RSys.trigger_queue_mono _ _ _ e hfirst)
      · exact RSys.trigger_queue_mono _ _ _ e hfirst

/-- Witness for `parent_bubbling` on `sampleC9`: reading `(2, y)` records
the parent link for child `0`, and a write through the child queues both
the parent's dependent `8` and the child key's dependent `9`. -/
theorem parent_bubbling_witness :
    alookup (((sampleC9.getTrap 2 (.named 1)).2).parentMap) 0 = some (2, .named 1)
    ∧ 8 ∈ (sampleC9.setTrap 0 (.named 0) (.prim 1)).updateQueue
    ∧ 9 ∈ (sampleC9.setTrap 0 (.named 0) (.prim 1)).updateQueue :=
  ⟨parent_bubbling.1 sampleC9 2 (.named 1) 0 (by decide) (by decide),
   (parent_bubbling.2 sampleC9 0 (.named 0) (.prim 1) 2 (.named 1)
      (by decide) rfl (Or.inl (by decide))).1 8 (by decide),
   (parent_bubbling.2 sampleC9 0 (.named 0) (.prim 1) 2 (.named 1)
      (by decide) rfl (Or.inl (by decide))).2 9 (by decide)⟩

/-- Witness for `reactive_roundtrip_single_proxy` on `sampleC4`: primitive
round trip, object write read back as its unique proxy, and idempotent
double wrapping. -/
theorem reactive_roundtrip_single_proxy_witness :
    ((sampleC4.setThrough 10 (.named 0) (.prim 9)).getThrough 10 (.named 0)).1 = .prim 9
    ∧ (∃ q, ((sampleC4.setThrough 10 (.named 0) (.obj 2)).getThrough 10 (.named 0)).1 = .obj q
        ∧ alookup (((sampleC4.setThrough 10 (.named 0) (.obj 2)).getThrough 10
            (.named 0)).2).proxyTarget q = some 2
        ∧ ((((sampleC4.setThrough 10 (.named 0) (.obj 2)).getThrough 10
            (.named 0)).2).getThrough 10 (.named 0)).1 = .obj q)
    ∧ (((sampleC4.reactiveF 2 none).2.reactiveF ((sampleC4.reactiveF 2 none).1) none).1
          = (sampleC4.reactiveF 2 none).1
        ∧ ((sampleC4.reactiveF 2 none).2.reactiveF 2 none).1
          = (sampleC4.reactiveF 2 none).1) :=
  ⟨reactive_roundtrip_single_proxy.1 sampleC4 10 1 (.named 0) (.prim 9) (by decide) (by decide),
   reactive_roundtrip_single_proxy.2.1 sampleC4 10 1 2 (.named 0)
     (by decide) (by decide) (by decide) (by decide),
   reactive_roundtrip_single_proxy.2.2 sampleC4 2 (by decide) (by decide) (by decide)⟩

/-- `C1` (batching law): starting outside any computation with an empty
pending queue, after an arbitrary synchronous sequence of reactive writes
the single deferred flush executes each *distinct* notified computation
exactly once — the executed list is duplicate-free and contains precisely
the computations with at least one touched dependency, regardless of how
many writes touched them. -/
theorem batching_law (s : RSys) (ws : List (Nat × Key × Val))
    (hce : s.currentEffect = none) (hq : s.updateQueue = []) :
    ((s.applyWrites ws).runFlush).log
        = (s.applyWrites ws).log ++ dedupFirst (s.touchedEffects ws)
    ∧ (dedupFirst (s.touchedEffects ws)).Nodup
    ∧ (∀ e, e ∈ dedupFirst (s.touchedEffects ws) ↔ e ∈ s.touchedEffects ws) := by
  refine ⟨?_, nodup_dedupFirst _, fun e => mem_dedupFirst _ e⟩
  rw [RSys.runFlush_log, RSys.applyWrites_queue s ws hce, hq]
  rfl

/-- Witness for `batching_law`: two synchronous writes both touching the
single computation `7` produce exactly one flush execution, not two. -/
theorem batching_law_witness :
    sampleC1.currentEffect = none ∧ sampleC1.updateQueue = [] ∧
    ((sampleC1.applyWrites sampleC1Writes).runFlush).log
        = (sampleC1.applyWrites sampleC1Writes).log
            ++ dedupFirst (sampleC1.touchedEffects sampleC1Writes) ∧
    dedupFirst (sampleC1.touchedEffects sampleC1Writes) = [7] ∧
    sampleC1Writes.length = 2 :=
  ⟨rfl, rfl, (batching_law sampleC1 sampleC1Writes rfl rfl).1, by decide, by decide⟩

/-- `C7`: writing an unchanged non-object value through the reactive set
trap leaves everything but the heap untouched (no dependent is notified),
while writing any object reference — identical or not to the stored one —
queues every dependent of `(target, key)`. -/
theorem setTrap_identity_skip :
    (∀ (s : RSys) (t : Nat) (k : Key) (v : Val),
        v.isObjRef = false → s.heapGet t k = v →
        s.setTrap t k v = { s with heap := aupdate s.heap (t, k) v }) ∧
    (∀ (s : RSys) (t : Nat) (k : Key) (o : Nat),
        s.currentEffect = none →
        ∀ e ∈ s.depsOf t k, e ∈ (s.setTrap t k (.obj o)).updateQueue) := by
  constructor
  · intro s t k v hobj hold
    simp only [RSys.setTrap]
    rw [if_neg]
    push_neg
    exact ⟨by simp [hold], by simp [hobj]⟩
  · intro s t k o hce e he
    simp only [RSys.setTrap]
    have hcond : s.heapGet t k ≠ Val.obj o ∨ (Val.obj o).isObjRef = true := Or.inr rfl
    rw [if_pos hcond]
    set s₁ : RSys := { s with heap := aupdate s.heap (t, k) (Val.obj o) } with hs₁
    have h₂ : e ∈ (s₁.trigger t k).updateQueue := by
      rw [RSys.trigger_eq_triggerFold]
      exact RSys.triggerFold_mem _ s₁ e hce (by rw [hs₁, RSys.depsOf_heapUpdate]; exact he)
    have h₃ : e ∈ (if t ∈ s.arrSet ∧ k = Key.length
        then (s₁.trigger t k).trigger t .arrayMagic else s₁.trigger t k).updateQueue := by
      split
      · exact RSys.trigger_queue_mono _ t .arrayMagic e h₂
      · exact h₂
    rcases hpm : alookup s.parentMap t with _ | ⟨p, pk⟩
    · simpa [hpm] using h₃
    · simp only [hpm]
      exact RSys.trigger_queue_mono _ p pk e h₃

/-- Witness for `setTrap_identity_skip`: rewriting the stored `5` queues
nothing; writing an object reference queues the dependent effect `7`. -/
theorem setTrap_identity_skip_witness :
    (sampleC7.setTrap 0 (.named 0) (.prim 5)
        = { sampleC7 with heap := aupdate sampleC7.heap (0, .named 0) (.prim 5) }) ∧
    7 ∈ (sampleC7.setTrap 0 (.named 0) (.obj 3)).updateQueue :=
  ⟨setTrap_identity_skip.1 sampleC7 0 (.named 0) (.prim 5) (by decide) (by decide),
   setTrap_identity_skip.2 sampleC7 0 (.named 0) 3 rfl 7 (by decide)⟩

theorem lastIndexOf_nonneg_iff (s : List Char) (c : Char) :
    lastIndexOf s c ≥ 0 ↔ c ∈ s := by
  induction s with
  | nil => simp [lastIndexOf]
  | cons a rest ih =>
      simp only [lastIndexOf]
      by_cases hr : lastIndexOf rest c ≥ 0
      · rw [if_pos hr]
        simp only [List.mem_cons]
        constructor
        · intro _; exact Or.inr (ih.mp hr)
        · intro _; omega
      · rw [if_neg hr]
        by_cases hac : a = c
        · simp [hac]
        · rw [if_neg hac]
          simp only [List.mem_cons]
          constructor
          · intro h; omega
          · rintro (h | h)
            · exact absurd h.symm hac
            · exact absurd (ih.mpr h) hr

theorem tailScan_append_yes (xs ys : List Char) (h : '<' ∈ xs ∨ '>' ∈ xs) :
    tailScan (xs ++ ys) = tailScan xs := by
  induction xs with
  | nil => simp at h
  | cons a xs ih =>
      simp only [List.cons_append, tailScan]
      by_cases h1 : a = '<'
      · simp [h1]
      · by_cases h2 : a = '>'
        · simp [h1, h2]
        · rw [if_neg h1, if_neg h2, if_neg h1, if_neg h2]
          refine ih ?_
          rcases h with h | h <;> rcases List.mem_cons.mp h with h' | h'
          · exact absurd h'.symm h1
          · exact Or.inl h'
          · exact absurd h'.symm h2
          · exact Or.inr h'

theorem tailScan_append_no (xs ys : List Char) (h1 : '<' ∉ xs) (h2 : '>' ∉ xs) :
    tailScan (xs ++ ys) = tailScan ys := by
  induction xs with
  | nil => rfl
  | cons a xs ih =>
      simp only [List.cons_append, tailScan]
      rw [if_neg (show ¬(a = '<') from fun h => h1 (h ▸ List.mem_cons_self a xs)),
          if_neg (show ¬(a = '>') from fun h => h2 (h ▸ List.mem_cons_self a xs))]
      exact ih (fun h => h1 (List.mem_cons_of_mem a h)) (fun h => h2 (List.mem_cons_of_mem a h))

theorem tailScan_no_lt (xs : List Char) (h : '<' ∉ xs) : tailScan xs = false := by
  induction xs with
  | nil => rfl
  | cons a xs ih =>
      simp only [tailScan]
      rw [if_neg (show ¬(a = '<') from fun ha => h (ha ▸ List.mem_cons_self a xs))]
      split
      · rfl
      · exact ih (fun hm => h (List.mem_cons_of_mem a hm))

theorem tailScan_lt_no_gt (xs : List Char) (h1 : '<' ∈ xs) (h2 : '>' ∉ xs) :
    tailScan xs = true := by
  induction xs with
  | nil => simp at h1
  | cons a xs ih =>
      simp only [tailScan]
      by_cases ha : a = '<'
      · rw [if_pos ha]
      · rw [if_neg ha,
            if_neg (show ¬(a = '>') from fun hg => h2 (hg ▸ List.mem_cons_self a xs))]
        refine ih ?_ (fun hm => h2 (List.mem_cons_of_mem a hm))
        rcases List.mem_cons.mp h1 with h | h
        · exact absurd h.symm ha
        · exact h

theorem tailScan_prefix_no_gt (y z : List Char) (h : '>' ∉ y) :
    tailScan (y ++ '<' :: z) = true := by
  induction y with
  | nil => rfl
  | cons c y ih =>
      simp only [List.cons_append, tailScan]
      by_cases hc : c = '<'
      · rw [if_pos hc]
      · rw [if_neg hc,
            if_neg (show ¬(c = '>') from fun hg => h (hg ▸ List.mem_cons_self c y))]
        exact ih (fun hm => h (List.mem_cons_of_mem c hm))

theorem isAttributePosition_eq_tailScan (s : List Char) :
    isAttributePosition s = tailScan s.reverse := by
  induction s with
  | nil => rfl
  | cons a rest ih =>
      have hrev : (a :: rest).reverse = rest.reverse ++ [a] := by simp
      rw [hrev]
      by_cases h1 : '<' ∈ rest <;> by_cases h2 : '>' ∈ rest
      · have r1 : lastIndexOf rest '<' ≥ 0 := (lastIndexOf_nonneg_iff rest '<').mpr h1
        have r2 : lastIndexOf rest '>' ≥ 0 := (lastIndexOf_nonneg_iff rest '>').mpr h2
        rw [tailScan_append_yes _ _ (Or.inl (by simpa using h1)), ← ih]
        unfold isAttributePosition
        simp only [lastIndexOf, if_pos r1, if_pos r2]
        exact decide_eq_decide.mpr (by omega)
      · have r1 : lastIndexOf rest '<' ≥ 0 := (lastIndexOf_nonneg_iff rest '<').mpr h1
        have r2 : ¬ lastIndexOf rest '>' ≥ 0 := fun h => h2 ((lastIndexOf_nonneg_iff rest '>').mp h)
        rw [tailScan_append_yes _ _ (Or.inl (by simpa using h1)),
            tailScan_lt_no_gt _ (by simpa using h1) (by simpa using h2)]
        unfold isAttributePosition
        simp only [lastIndexOf, if_pos r1, if_neg r2]
        rw [decide_eq_true_eq]
        split <;> omega
      · have r1 : ¬ lastIndexOf rest '<' ≥ 0 := fun h => h1 ((lastIndexOf_nonneg_iff rest '<').mp h)
        have r2 : lastIndexOf rest '>' ≥ 0 := (lastIndexOf_nonneg_iff rest '>').mpr h2
        rw [tailScan_append_yes _ _ (Or.inr (by simpa using h2)),
            tailScan_no_lt _ (by simpa using h1)]
        unfold isAttributePosition
        simp only [lastIndexOf, if_neg r1, if_pos r2]
        rw [decide_eq_false_iff_not]
        split <;> omega
      · have r1 : ¬ lastIndexOf rest '<' ≥ 0 := fun h => h1 ((lastIndexOf_nonneg_iff rest '<').mp h)
        have r2 : ¬ lastIndexOf rest '>' ≥ 0 := fun h => h2 ((lastIndexOf_nonneg_iff rest '>').mp h)
        rw [tailScan_append_no _ _ (by simpa using h1) (by simpa using h2)]
        unfold isAttributePosition
        simp only [lastIndexOf, if_neg r1, if_neg r2]
        by_cases ha1 : a = '<'
        · subst ha1
          simp [tailScan]
        · by_cases ha2 : a = '>'
          · subst ha2
            simp [tailScan, ha1]
          · rw [if_neg ha1, if_neg ha2]
            simp [tailScan, ha1, ha2]

theorem tailScan_true_iff (r : List Char) :
    tailScan r = true ↔ ∃ w x, r = w ++ '<' :: x ∧ '>' ∉ w ∧ '<' ∉ w := by
  induction r with
  | nil =>
      simp only [tailScan]
      constructor
      · intro h; cases h
      · rintro ⟨w, x, hwx, -, -⟩
        exact absurd hwx (by simp)
  | cons c r ih =>
      simp only [tailScan]
      by_cases hc1 : c = '<'
      · subst hc1
        constructor
        · intro _
          exact ⟨[], r, rfl, by simp, by simp⟩
        · intro _
          simp
      · by_cases hc2 : c = '>'
        · subst hc2
          rw [if_neg hc1, if_pos rfl]
          constructor
          · intro h; cases h
          · rintro ⟨w, x, hwx, hw, -⟩
            rcases w with _ | ⟨d, w⟩
            · exact absurd (List.head_eq_of_cons_eq hwx) hc1
            · have : d = '>' := (List.head_eq_of_cons_eq hwx).symm
              exact absurd (this ▸ List.mem_cons_self d w) hw
        · rw [if_neg hc1, if_neg hc2, ih]
          constructor
          · rintro ⟨w, x, hwx, hw1, hw2⟩
            have hgc : ¬('>' = c) := fun h => hc2 h.symm
            have hlc : ¬('<' = c) := fun h => hc1 h.symm
            exact ⟨c :: w, x, by rw [hwx]; rfl,
              by simp [hw1, hgc], by simp [hw2, hlc]⟩
          · rintro ⟨w, x, hwx, hw1, hw2⟩
            rcases w with _ | ⟨d, w⟩
            · exact absurd (List.head_eq_of_cons_eq hwx) hc1
            · refine ⟨w, x, List.tail_eq_of_cons_eq hwx, ?_, ?_⟩
              · exact fun h => hw1 (List.mem_cons_of_mem d h)
              · exact fun h => hw2 (List.mem_cons_of_mem d h)

/-- The code's attribute-position test holds exactly when the accumulated
prefix contains an unmatched `<`: a `<` with no `>` anywhere after it. -/
theorem isAttributePosition_iff_unmatched (s : List Char) :
    isAttributePosition s = true ↔ ∃ u v, s = u ++ '<' :: v ∧ '>' ∉ v := by
  rw [isAttributePosition_eq_tailScan]
  constructor
  · intro h
    obtain ⟨w, x, hr, hw1, hw2⟩ := (tailScan_true_iff s.reverse).mp h
    refine ⟨x.reverse, w.reverse, ?_, by simpa using hw1⟩
    have hs : s = s.reverse.reverse := by simp
    rw [hs, hr]
    simp
  · rintro ⟨u, v, hs, hv⟩
    rw [hs]
    have : (u ++ '<' :: v).reverse = v.reverse ++ '<' :: u.reverse := by simp
    rw [this]
    exact tailScan_prefix_no_gt _ _ (by simpa using hv)

theorem compileMarks_decision :
    ∀ (segs : List String) (i : Nat) (h0 : List Char),
      ∀ pr ∈ compileMarks i segs h0, pr.1 = isAttributePosition pr.2 := by
  intro segs
  induction segs with
  | nil => intro i h0 pr hpr; cases hpr
  | cons sPart rest ih =>
      intro i h0 pr hpr
      cases rest with
      | nil => cases hpr
      | cons r rest' =>
          have hstep : compileMarks i (sPart :: r :: rest') h0
              = (isAttributePosition (h0 ++ sPart.toList), h0 ++ sPart.toList)
                :: compileMarks (i + 1) (r :: rest')
                    ((h0 ++ sPart.toList)
                      ++ (if isAttributePosition (h0 ++ sPart.toList) then markerStr i
                          else "<!--" ++ markerStr i ++ "-->").toList) := rfl
          rw [hstep] at hpr
          rcases List.mem_cons.mp hpr with h | h
          · rw [h]
          · exact ih (i + 1) _ pr h

/-- `C3` counterexample: compiling the segments `["<p a=\"", "\"></p>"]`
classifies the single interpolation as an attribute-value placeholder
(`true`), yet the claim's literal condition — "the most recent unmatched
`<` precedes the most recent `>`" — is false on the accumulated prefix
`<p a="`, which contains no `>` at all; the claimed equivalence fails. -/
theorem slot_classification_counterexample :
    (compileMarks 0 ["<p a=\"", "\"></p>"] []).head?
        = some (true, ("<p a=\"").toList)
    ∧ litCond (("<p a=\"").toList) = false := by
  decide

/-- `C3` (amended): in the `_createElement` walk, an interpolation compiles
to an attribute-value placeholder marker exactly when the accumulated
markup prefix contains an unmatched `<` — a `<` with no `>` anywhere after
it, i.e. the most recent `<` comes after the most recent `>` (or no `>`
exists); otherwise it compiles to a comment-node marker. -/
theorem slot_classification (segs : List String) (i : Nat) (h0 : List Char) :
    ∀ pr ∈ compileMarks i segs h0,
      (pr.1 = true ↔ ∃ u v, pr.2 = u ++ '<' :: v ∧ '>' ∉ v) := by
  intro pr hpr
  rw [compileMarks_decision segs i h0 pr hpr]
  exact isAttributePosition_iff_unmatched pr.2

/-- Witness for `slot_classification`: the interpolation of
`html`<p a="${v}"></p>`` is attribute-position, so its prefix decomposes
around an unmatched `<`. -/
theorem slot_classification_witness :
    ∃ u v, ("<p a=\"").toList = u ++ '<' :: v ∧ '>' ∉ v :=
  (slot_classification ["<p a=\"", "\"></p>"] 0 []
      (true, ("<p a=\"").toList) (by decide)).mp rfl

/-- Re-running `setValue` with the value it was just fed never commits:
either the part now stores that value, or one of the suppression checks
fired and fires again. -/
theorem setValue_idem (p : Part) (v : PVal) :
    ((p.setValue v).1.setValue v).2 = false := by
  by_cases h : p.value = v
  · simp [Part.setValue, h]
  · by_cases hs : skipCheck p.value v = true
    · simp [Part.setValue, h, hs]
    · simp [Part.setValue, h, hs]

theorem updateParts_idem (ps : List (Option Part)) (vs : List PVal) :
    (updateParts (updateParts ps vs).1 vs).2 = 0 := by
  induction ps generalizing vs with
  | nil => rfl
  | cons op ps ih =>
      rcases hrec : updateParts ps vs.tail with ⟨rest, n⟩
      have h2 := ih vs.tail
      rw [hrec] at h2
      cases op with
      | none =>
          have h1 : updateParts (none :: ps) vs = (none :: rest, n) := by
            simp [updateParts, hrec]
          rw [h1]
          show (updateParts (none :: rest) vs).2 = 0
          rcases hrec2 : updateParts rest vs.tail with ⟨r2, n2⟩
          have hn2 : n2 = 0 := by rw [hrec2] at h2; exact h2
          simp [updateParts, hrec2, hn2]
      | some p =>
          rcases hsv : p.setValue (vs.head?.getD PVal.undef) with ⟨p', c⟩
          have h1 : updateParts (some p :: ps) vs
              = (some p' :: rest, n + (if c then 1 else 0)) := by
            simp [updateParts, hrec, hsv]
          rw [h1]
          show (updateParts (some p' :: rest) vs).2 = 0
          rcases hrec2 : updateParts rest vs.tail with ⟨r2, n2⟩
          have hn2 : n2 = 0 := by rw [hrec2] at h2; exact h2
          have h3 : (p'.setValue (vs.head?.getD PVal.undef)).2 = false := by
            have h4 := setValue_idem p (vs.head?.getD PVal.undef)
            rw [hsv] at h4
            exact h4
          rcases hsv' : p'.setValue (vs.head?.getD PVal.undef) with ⟨p'', c'⟩
          rw [hsv'] at h3
          simp only at h3
          subst h3
          simp [updateParts, hrec2, hsv', hn2]

theorem escapeChar_no_tag (c : Char) :
    '<' ∉ escapeChar c ∧ '>' ∉ escapeChar c := by
  unfold escapeChar
  split_ifs with h1 h2 h3 h4 h5 <;> simp_all
  constructor
  · intro h
    exact h2 h.symm
  · intro h
    exact h3 h.symm

theorem decode_escapeChar (c : Char) (R : List Char) :
    decodeEntities (escapeChar c ++ R) = c :: decodeEntities R := by
  unfold escapeChar
  split_ifs with h1 h2 h3 h4 h5
  · subst h1; simp [decodeEntities, startsWithL]
  · subst h2; simp [decodeEntities, startsWithL]
  · subst h3; simp [decodeEntities, startsWithL]
  · subst h4; simp [decodeEntities, startsWithL]
  · subst h5; simp [decodeEntities, startsWithL]
  · simp [decodeEntities, h1]

theorem escapeHtml_roundtrip_list (l : List Char) :
    decodeEntities ((l.map escapeChar).flatten) = l := by
  induction l with
  | nil => simp [decodeEntities]
  | cons c l ih => rw [List.map_cons, List.flatten_cons, decode_escapeChar, ih]

/-- The fast path routes through one bulk markup assignment built from the
escaped item values. -/
theorem updateArray_fastPath (children : List ChildNode) (bid : Nat) (segs : List String)
    (vs0 : PList) (tl : List PVal) (op cl : String)
    (hlen : (PVal.tmpl bid segs vs0 :: tl).length ≥ FAST_LIST_THRESHOLD)
    (hsw : simpleWrapper segs = some (op, cl))
    (hhom : homogeneousFrom bid tl = true) :
    updateArray false children [] (PVal.tmpl bid segs vs0 :: tl)
      = ((PVal.tmpl bid segs vs0 :: tl).map (fun _ => ChildNode.elemNode),
         { bulkHTML := some (String.join ((PVal.tmpl bid segs vs0 :: tl).map (fun it =>
             op ++ escapeHtml (if tmplHeadVal it = .undef ∨ tmplHeadVal it = .vnull
                 then "" else (tmplHeadVal it).display) ++ cl))) }) := by
  have hfp : fastPath [] (PVal.tmpl bid segs vs0 :: tl)
      = some ((PVal.tmpl bid segs vs0 :: tl).map (fun _ => ChildNode.elemNode),
          { bulkHTML := some (bulkJoinHTML op cl (PVal.tmpl bid segs vs0 :: tl)) }) := by
    unfold fastPath
    rw [if_pos hlen]
    simp only [hsw]
    rw [if_pos hhom]
    rfl
  have hu : updateArray false children [] (PVal.tmpl bid segs vs0 :: tl)
      = (match fastPath [] (PVal.tmpl bid segs vs0 :: tl) with
         | some res => res
         | none => diffLoop children [] (PVal.tmpl bid segs vs0 :: tl)) := rfl
  rw [hu, hfp]
  rfl

/-- `C10` (fast-path escaping): in the homogeneous large-list fast path,
the single markup string assigned to the container is the concatenation of
`open ++ escapeHtml(value) ++ close` per item, with null/undefined values
becoming the empty string; and `escapeHtml` leaves no `<` or `>` in its
output (so tag-like text cannot be parsed as markup) while remaining
lossless — decoding its five entities recovers the original text. -/
theorem fast_path_escaping :
    (∀ (children : List ChildNode) (bid : Nat) (segs : List String)
        (vs0 : PList) (tl : List PVal) (op cl : String),
        (PVal.tmpl bid segs vs0 :: tl).length ≥ FAST_LIST_THRESHOLD →
        simpleWrapper segs = some (op, cl) →
        homogeneousFrom bid tl = true →
        updateArray false children [] (PVal.tmpl bid segs vs0 :: tl)
          = ((PVal.tmpl bid segs vs0 :: tl).map (fun _ => ChildNode.elemNode),
             { bulkHTML := some (String.join ((PVal.tmpl bid segs vs0 :: tl).map (fun it =>
                 op ++ escapeHtml (if tmplHeadVal it = .undef ∨ tmplHeadVal it = .vnull
                     then "" else (tmplHeadVal it).display) ++ cl))) }))
    ∧ (∀ s : String, '<' ∉ (escapeHtml s).toList ∧ '>' ∉ (escapeHtml s).toList)
    ∧ (∀ s : String, decodeEntities (escapeHtml s).toList = s.toList) := by
  refine ⟨fun children bid segs vs0 tl op cl hlen hsw hhom =>
      updateArray_fastPath children bid segs vs0 tl op cl hlen hsw hhom, ?_, ?_⟩
  · intro s
    have hl : (escapeHtml s).toList = (s.toList.map escapeChar).flatten := rfl
    rw [hl]
    constructor
    · intro hmem
      rw [List.mem_flatten] at hmem
      obtain ⟨l, hl1, hl2⟩ := hmem
      rw [List.mem_map] at hl1
      obtain ⟨c, _, hc⟩ := hl1
      subst hc
      exact absurd hl2 (escapeChar_no_tag c).1
    · intro hmem
      rw [List.mem_flatten] at hmem
      obtain ⟨l, hl1, hl2⟩ := hmem
      rw [List.mem_map] at hl1
      obtain ⟨c, _, hc⟩ := hl1
      subst hc
      exact absurd hl2 (escapeChar_no_tag c).2
  · intro s
    have hl : (escapeHtml s).toList = (s.toList.map escapeChar).flatten := rfl
    rw [hl, escapeHtml_roundtrip_list]

/-- Witness for `fast_path_escaping`: a 50000-item homogeneous `<li>` list
whose interpolated value is tag-like text is rendered through one escaped
bulk markup string. -/
theorem fast_path_escaping_witness :
    updateArray false [] [] (sampleC10Item :: List.replicate 49999 sampleC10Item)
      = ((sampleC10Item :: List.replicate 49999 sampleC10Item).map
            (fun _ => ChildNode.elemNode),
         { bulkHTML := some (String.join
             ((sampleC10Item :: List.replicate 49999 sampleC10Item).map (fun it =>
               "<li>" ++ escapeHtml (if tmplHeadVal it = .undef ∨ tmplHeadVal it = .vnull
                   then "" else (tmplHeadVal it).display) ++ "</li>"))) }) :=
  fast_path_escaping.1 [] 1 ["<li>", "</li>"] (.cons (.str "<b>hi</b>") .nil)
    (List.replicate 49999 sampleC10Item) "<li>" "</li>"
    (by
      rw [List.length_cons, List.length_replicate]
      unfold FAST_LIST_THRESHOLD
      omega)
    (by decide)
    (by
      unfold homogeneousFrom
      rw [List.all_eq_true]
      intro x hx
      rw [List.eq_of_mem_replicate hx]
      decide)

/-- `C6` (render idempotence): rendering the same template result twice in
a row into any container performs zero part commits on the second call —
every part's value comparison reports it unchanged. -/
theorem render_idempotent (r : TRes) (c : Container) :
    (renderC r (renderC r c).1).2 = 0 := by
  have hfresh : ∀ x : Container,
      x.inst = some (Inst.mk r.stringsId
        (updateParts (r.values.map (fun _ => some (Part.mk PVal.undef))) r.values).1) →
      (renderC r x).2 = 0 := by
    intro x hx
    simp [renderC, hx, updateParts_idem]
  rcases hc : c.inst with _ | inst
  · have h1 : renderC r c = renderFresh r := by simp [renderC, hc]
    rw [h1]
    exact hfresh _ rfl
  · by_cases hid : inst.stringsId = r.stringsId
    · have h1 : (renderC r c).1
          = { inst := some { stringsId := inst.stringsId
                             parts := (updateParts inst.parts r.values).1 } } := by
        simp [renderC, hc, hid]
      rw [h1]
      simp [renderC, hid, updateParts_idem]
    · have h1 : renderC r c = renderFresh r := by simp [renderC, hc, hid]
      rw [h1]
      exact hfresh _ rfl

theorem itemsEqual_refl (a : PVal) : itemsEqual a a = true := by
  simp [itemsEqual]

theorem DomOps.add_empty (a : DomOps) : a.add {} = a := by
  rcases a with ⟨i, t, r, ap, rm, b⟩
  simp only [DomOps.add]
  cases b <;> simp [Option.orElse]

theorem DomOps.empty_add (a : DomOps) : DomOps.add {} a = a := by
  rcases a with ⟨i, t, r, ap, rm, b⟩
  simp only [DomOps.add]
  simp [Option.orElse]

/-- A list diffed against itself skips every index and touches nothing. -/
theorem diffLoop_self (xs : List PVal) (chs : List ChildNode)
    (h : xs.length ≤ chs.length) :
    diffLoop chs xs xs = (chs, {}) := by
  induction xs generalizing chs with
  | nil => simp [diffLoop, appendPhase]
  | cons x xs ih =>
      rcases chs with _ | ⟨c, crest⟩
      · simp at h
      · have hle : xs.length ≤ crest.length := by
          simp only [List.length_cons] at h
          omega
        simp [diffLoop, itemsEqual_refl, ih crest hle, DomOps.empty_add]

/-- A single changed index: every other index skips, and the changed one
does exactly what `diffOne` does there. -/
theorem diffLoop_one (pre : List PVal) (cpre : List ChildNode)
    (post : List PVal) (cpost : List ChildNode) (old new : PVal) (cold : ChildNode)
    (h1 : cpre.length = pre.length) (h2 : post.length ≤ cpost.length)
    (hne : itemsEqual new old = false) :
    diffLoop (cpre ++ cold :: cpost) (pre ++ old :: post) (pre ++ new :: post)
      = (cpre ++ (diffOne cold new).1 :: cpost, (diffOne cold new).2) := by
  induction pre generalizing cpre with
  | nil =>
      have hc : cpre = [] := List.length_eq_zero.mp h1
      subst hc
      rcases hd : diffOne cold new with ⟨cn, d⟩
      simp [diffLoop, hne, hd, diffLoop_self post cpost h2, DomOps.add_empty]
  | cons a pre' ih =>
      rcases cpre with _ | ⟨c, cpre'⟩
      · simp at h1
      · have h1' : cpre'.length = pre'.length := by
          simp only [List.length_cons] at h1
          omega
        simp [diffLoop, itemsEqual_refl, ih cpre' h1', DomOps.empty_add]

theorem countChanged_self (xs : List PVal) : countChanged xs xs = 0 := by
  induction xs with
  | nil => rfl
  | cons x xs ih =>
      simp [countChanged, List.countP_cons, itemsEqual_refl] at ih ⊢
      exact ih

theorem countChanged_single (pre post : List PVal) (a b : PVal) :
    countChanged (pre ++ a :: post) (pre ++ b :: post)
      = (if itemsEqual a b then 0 else 1) := by
  induction pre with
  | nil =>
      have hself := countChanged_self post
      simp only [countChanged] at hself
      simp only [List.nil_append, countChanged, List.zip_cons_cons, List.countP_cons,
        hself]
      by_cases h : itemsEqual a b = true <;> simp [h]
  | cons c pre' ih =>
      have hstep : countChanged ((c :: pre') ++ a :: post) ((c :: pre') ++ b :: post)
          = countChanged (pre' ++ a :: post) (pre' ++ b :: post) := by
        simp [countChanged, itemsEqual_refl]
      rw [hstep, ih]

/-- The fast path declines (and the per-index diff runs) whenever old and
new lengths agree, the old list is nonempty, and few items changed. -/
theorem fastPath_none_small (cached newArray : List PVal)
    (hlen : newArray.length = cached.length) (hnz : cached.length ≠ 0)
    (hcc : countChanged newArray cached ≤ 10) :
    fastPath cached newArray = none := by
  unfold fastPath
  repeat' split
  all_goals first
    | rfl
    | exact absurd (by assumption) hnz
    | exact absurd hlen (by assumption)
    | exact absurd (le_trans hcc (le_max_left 10 _)) (by assumption)

/-- `C2` counterexample: a one-element rendered list whose single item is
replaced by a changed template result is not mutated in place — list
children carry no `_templateInstance` (it stays on the discarded temp
container), so the child is torn down and rebuilt (`replaceChild`), and
"no child node is destroyed or recreated" fails. -/
theorem list_diff_counterexample :
    (updateArray false [ChildNode.elemNode]
        [PVal.tmpl 1 ["<a>", "</a>"] (.cons (.num 7) .nil)]
        [PVal.tmpl 2 ["<b>", "</b>"] (.cons (.num 7) .nil)]).2.replaces = 1
    ∧ (updateArray false [ChildNode.elemNode]
        [PVal.tmpl 1 ["<a>", "</a>"] (.cons (.num 7) .nil)]
        [PVal.tmpl 2 ["<b>", "</b>"] (.cons (.num 7) .nil)]).2.instUpdates = 0 := by
  decide

/-- `C2` (amended): re-rendering an equal-length list that changed at one
index touches exactly one child and no others.  A changed template-result
item — same descriptor or not — always tears down and rebuilds that one
child via `replaceChild` (exactly one replace, no instance updates,
nothing appended or removed), because the children `_updateArray` builds
never carry a `_templateInstance`; a changed plain (non-template,
non-HTML-string) item over an existing text node mutates that text node
in place. -/
theorem list_diff_minimality :
    (∀ (pre : List PVal) (cpre : List ChildNode) (post : List PVal)
        (cpost : List ChildNode) (osid nsid : Nat) (osegs nsegs : List String)
        (ovals nvals : PList),
        cpre.length = pre.length → post.length ≤ cpost.length →
        itemsEqual (.tmpl nsid nsegs nvals) (.tmpl osid osegs ovals) = false →
        updateArray false (cpre ++ ChildNode.elemNode :: cpost)
            (pre ++ PVal.tmpl osid osegs ovals :: post)
            (pre ++ PVal.tmpl nsid nsegs nvals :: post)
          = (cpre ++ ChildNode.elemNode :: cpost, { replaces := 1 }))
    ∧ (∀ (pre : List PVal) (cpre : List ChildNode) (post : List PVal)
        (cpost : List ChildNode) (oldv newv : PVal) (olds : String),
        cpre.length = pre.length → post.length ≤ cpost.length →
        itemsEqual newv oldv = false →
        newv.isTmpl = false → newv.isHTMLStringB = false →
        updateArray false (cpre ++ ChildNode.textNode olds :: cpost)
            (pre ++ oldv :: post) (pre ++ newv :: post)
          = (cpre ++ ChildNode.textNode newv.display :: cpost, { textUpdates := 1 })) := by
  have hroute : ∀ (pre : List PVal) (cpre : List ChildNode) (post : List PVal)
      (cpost : List ChildNode) (oldv newv : PVal) (cold : ChildNode),
      cpre.length = pre.length → post.length ≤ cpost.length →
      itemsEqual newv oldv = false →
      updateArray false (cpre ++ cold :: cpost)
          (pre ++ oldv :: post) (pre ++ newv :: post)
        = (cpre ++ (diffOne cold newv).1 :: cpost, (diffOne cold newv).2) := by
    intro pre cpre post cpost oldv newv cold h1 h2 hne
    have hcc : countChanged (pre ++ newv :: post) (pre ++ oldv :: post) ≤ 10 := by
      rw [countChanged_single]
      split <;> omega
    have hfp : fastPath (pre ++ oldv :: post) (pre ++ newv :: post) = none := by
      refine fastPath_none_small _ _ (by simp) (by simp) hcc
    have hu : updateArray false (cpre ++ cold :: cpost)
        (pre ++ oldv :: post) (pre ++ newv :: post)
        = (match fastPath (pre ++ oldv :: post) (pre ++ newv :: post) with
           | some res => res
           | none => diffLoop (cpre ++ cold :: cpost)
               (pre ++ oldv :: post) (pre ++ newv :: post)) := rfl
    rw [hu, hfp]
    exact diffLoop_one pre cpre post cpost oldv newv cold h1 h2 hne
  constructor
  · intro pre cpre post cpost osid nsid osegs nsegs ovals nvals h1 h2 hne
    have hd : diffOne ChildNode.elemNode (PVal.tmpl nsid nsegs nvals)
        = (ChildNode.elemNode, { replaces := 1 }) := rfl
    have := hroute pre cpre post cpost (PVal.tmpl osid osegs ovals)
      (PVal.tmpl nsid nsegs nvals) ChildNode.elemNode h1 h2 hne
    rw [hd] at this
    exact this
  · intro pre cpre post cpost oldv newv olds h1 h2 hne hnt hnh
    have hd : diffOne (ChildNode.textNode olds) newv
        = (ChildNode.textNode newv.display, { textUpdates := 1 }) := by
      cases newv <;> simp [diffOne, PVal.isTmpl] at hnt ⊢ <;>
        simp_all [PVal.isHTMLStringB]
    have := hroute pre cpre post cpost oldv newv (ChildNode.textNode olds) h1 h2 hne
    rw [hd] at this
    exact this

/-- Witness for `list_diff_minimality`: a three-item list changing only
the middle item's interpolated value — same `<li>` descriptor throughout —
rebuilds exactly that one child via `replaceChild` and leaves the others
alone, and a text list changing one entry mutates only that text node. -/
theorem list_diff_minimality_witness :
    updateArray false
        [ChildNode.elemNode, ChildNode.elemNode, ChildNode.elemNode]
        [PVal.tmpl 4 ["<li>", "</li>"] (.cons (.num 1) .nil),
         PVal.tmpl 4 ["<li>", "</li>"] (.cons (.num 2) .nil),
         PVal.tmpl 4 ["<li>", "</li>"] (.cons (.num 3) .nil)]
        [PVal.tmpl 4 ["<li>", "</li>"] (.cons (.num 1) .nil),
         PVal.tmpl 4 ["<li>", "</li>"] (.cons (.num 9) .nil),
         PVal.tmpl 4 ["<li>", "</li>"] (.cons (.num 3) .nil)]
      = ([ChildNode.elemNode, ChildNode.elemNode, ChildNode.elemNode],
         { replaces := 1 })
    ∧ updateArray false
        [ChildNode.textNode "x", ChildNode.textNode "y"]
        [PVal.str "x", PVal.str "y"] [PVal.str "x", PVal.str "z"]
      = ([ChildNode.textNode "x", ChildNode.textNode "z"], { textUpdates := 1 }) :=
  ⟨list_diff_minimality.1
      [PVal.tmpl 4 ["<li>", "</li>"] (.cons (.num 1) .nil)]
      [ChildNode.elemNode]
      [PVal.tmpl 4 ["<li>", "</li>"] (.cons (.num 3) .nil)]
      [ChildNode.elemNode]
      4 4 ["<li>", "</li>"] ["<li>", "</li>"]
      (.cons (.num 2) .nil) (.cons (.num 9) .nil)
      (by decide) (by decide)
      (by simp [itemsEqual, arraysEqual, arrayElemEqual, PVal.isObject]),
   list_diff_minimality.2
      [PVal.str "x"] [ChildNode.textNode "x"] [] []
      (PVal.str "y") (PVal.str "z") "y"
      (by decide) (by decide) (by decide) (by decide) (by decide)⟩

end Htmp
